import Mathlib

/-!
Verification of `ModifiedPCP` (Kattis, ACM-ICPC World Finals 2013, "Limited
Correspondence", `main.py`) against its natural-language specification.

The Python program is shallowly embedded below.  Python strings become
`List Char`, Python sets of indices become `Finset ℕ`, and the
defaultdict-of-dicts trie becomes the inductive type `Trie` whose children
are stored in an association list (Python dicts preserve insertion order;
lookup is by character, so only the key-value pairs matter).  Python's
`set` iteration in `dfs` has unspecified order; the embedding iterates in
ascending index order (`Finset.sort`).  Because `final_sequence` is updated
with `min`, the accumulated value is independent of the iteration order.
-/

namespace PCP

/-- A Python string, modelled as its list of characters. -/
abbrev Str := List Char

/-- One node of the trie built by `ModifiedPCP.make_tree`.  In the source a
node is a `defaultdict` holding child nodes under character keys plus the
two index sets stored under the keys `end` and `part`. -/
inductive Trie where
  | node (children : List (Char × Trie)) (endS : Finset ℕ) (part : Finset ℕ)

/-- The child map of a trie node. -/
def Trie.children : Trie → List (Char × Trie)
  | .node cs _ _ => cs

/-- The `end` set of a node: indices whose string terminates exactly here. -/
def Trie.endS : Trie → Finset ℕ
  | .node _ e _ => e

/-- The `part` set of a node: indices whose string has this node as a
strict prefix. -/
def Trie.part : Trie → Finset ℕ
  | .node _ _ p => p

/-- Lookup of `node[letter]` restricted to present keys.  In the source a
missing key auto-vivifies an empty dict; an empty dict fails the
`len(...) != 0` test in `search_in_tree` and the walk never enters it, so
the vivified nodes are unobservable and a partial lookup is faithful. -/
def lookupChild : List (Char × Trie) → Char → Option Trie
  | [], _ => none
  | (c', t) :: rest, c => if c' = c then some t else lookupChild rest c

/-- Store a child under key `c` (replacing the existing entry, appending a
new one otherwise), as mutation of `node[letter]` does in the source. -/
def setChild : List (Char × Trie) → Char → Trie → List (Char × Trie)
  | [], c, t => [(c, t)]
  | (c', t') :: rest, c, t =>
      if c' = c then (c', t) :: rest else (c', t') :: setChild rest c t

/-- `node[letter]` of a defaultdict: the existing child or a fresh empty
node (its `end`/`part` sets are set to `∅` by the `setdefault` calls). -/
def childOrNew (t : Trie) (c : Char) : Trie :=
  (lookupChild t.children c).getD (.node [] ∅ ∅)

/-- The inner loop of `make_tree` for one `(idx, string)` pair: walk/create
nodes letter by letter, adding `idx` to each visited node's `part`; at the
terminal node add `idx` to `end` and remove it from `part`.  (The terminal
`remove` cannot raise in the source: `idx` was just added by the last loop
iteration for a non-empty string, and is in the root's initial `part`
otherwise.) -/
def insertT (t : Trie) (idx : ℕ) : Str → Trie
  | [] => .node t.children (insert idx t.endS) (t.part.erase idx)
  | c :: cs =>
      let child := childOrNew t c
      let child' := insertT (.node child.children child.endS (insert idx child.part)) idx cs
      .node (setChild t.children c child') t.endS t.part

/-- `ModifiedPCP.make_tree`: start from a root with `end = ∅` and
`part = set(self.s_options_total)`, then insert every `(idx, string)` of
`enumerate(strings)`. -/
def make_tree (s_options_total : Finset ℕ) (strings : List Str) : Trie :=
  strings.enum.foldl (fun root q => insertT root q.1 q.2) (.node [] ∅ s_options_total)

/-- `ModifiedPCP.search_in_tree`: walk the trie along `substring`,
collecting the `end` set of every node entered; if the whole substring is
consumed, also collect the final node's `part` set. -/
def search_in_tree : Trie → Str → Finset ℕ
  | t, [] => t.part
  | t, c :: cs =>
      match lookupChild t.children c with
      | none => ∅
      | some child => child.endS ∪ search_in_tree child cs

/-- Follow a character path from a node (specification helper used to state
facts about every node of a built trie). -/
def nodeAt : Trie → Str → Option Trie
  | t, [] => some t
  | t, c :: cs =>
      match lookupChild t.children c with
      | none => none
      | some child => nodeAt child cs

end PCP

namespace PCP

@[simp] lemma Trie.children_mk (cs : List (Char × Trie)) (e p : Finset ℕ) :
    (Trie.node cs e p).children = cs := rfl

@[simp] lemma Trie.endS_mk (cs : List (Char × Trie)) (e p : Finset ℕ) :
    (Trie.node cs e p).endS = e := rfl

@[simp] lemma Trie.part_mk (cs : List (Char × Trie)) (e p : Finset ℕ) :
    (Trie.node cs e p).part = p := rfl

/-- The `end` set of the node of `t` at path `p`, `∅` when the node is absent. -/
def oldEndS (t : Trie) (p : Str) : Finset ℕ :=
  ((nodeAt t p).map Trie.endS).getD ∅

/-- The `part` set of the node of `t` at path `p`, `∅` when the node is absent. -/
def oldPart (t : Trie) (p : Str) : Finset ℕ :=
  ((nodeAt t p).map Trie.part).getD ∅

@[simp] lemma nodeAt_nil (t : Trie) : nodeAt t [] = some t := rfl

lemma nodeAt_cons (t : Trie) (c : Char) (cs : Str) :
    nodeAt t (c :: cs) =
      match lookupChild t.children c with
      | none => none
      | some child => nodeAt child cs := rfl

lemma lookupChild_setChild (cs : List (Char × Trie)) (c c' : Char) (t : Trie) :
    lookupChild (setChild cs c t) c' = if c = c' then some t else lookupChild cs c' := by
  induction cs with
  | nil =>
      by_cases h : c = c' <;> simp [setChild, lookupChild, h]
  | cons hd tl ih =>
      obtain ⟨c₀, t₀⟩ := hd
      by_cases h₀ : c₀ = c
      · subst h₀
        by_cases h₁ : c₀ = c' <;> simp [setChild, lookupChild, h₁]
      · by_cases h₁ : c₀ = c'
        · subst h₁
          have : ¬ c = c₀ := fun h => h₀ h.symm
          simp [setChild, lookupChild, h₀, this]
        · simp [setChild, lookupChild, h₀, h₁, ih]

lemma nodeAt_congr_children (cs : List (Char × Trie)) (e p e' p' : Finset ℕ)
    (q : Str) (hq : q ≠ []) :
    nodeAt (.node cs e p) q = nodeAt (.node cs e' p') q := by
  cases q with
  | nil => exact absurd rfl hq
  | cons c rest => simp [nodeAt_cons]

lemma nodeAt_isSome_congr (cs : List (Char × Trie)) (e p e' p' : Finset ℕ) (q : Str) :
    (nodeAt (.node cs e p) q).isSome = (nodeAt (.node cs e' p') q).isSome := by
  cases q with
  | nil => rfl
  | cons c rest => rw [nodeAt_congr_children cs e p e' p' _ (by simp)]

end PCP

namespace PCP

lemma Trie.eta (t : Trie) : Trie.node t.children t.endS t.part = t := by
  cases t
  rfl


lemma nodeAt_cons' (t : Trie) (c : Char) (q : Str) :
    nodeAt t (c :: q) = (lookupChild t.children c).bind (fun ch => nodeAt ch q) := by
  cases h : lookupChild t.children c <;> simp [nodeAt_cons, h]

lemma nodeAt_mk_children (t : Trie) (e p : Finset ℕ) (q : Str) (hq : q ≠ []) :
    nodeAt (.node t.children e p) q = nodeAt t q := by
  cases q with
  | nil => exact absurd rfl hq
  | cons c rest => rw [nodeAt_cons', nodeAt_cons', Trie.children_mk]

lemma insertT_nil (t : Trie) (i : ℕ) :
    insertT t i [] = .node t.children (insert i t.endS) (t.part.erase i) := rfl

lemma insertT_cons (t : Trie) (i : ℕ) (c : Char) (cs : Str) :
    insertT t i (c :: cs) =
      .node (setChild t.children c
        (insertT (.node (childOrNew t c).children (childOrNew t c).endS
          (insert i (childOrNew t c).part)) i cs)) t.endS t.part := rfl

lemma nodeAt_insertT_isSome (i : ℕ) :
    ∀ (w : Str) (t : Trie) (p : Str),
      ((nodeAt (insertT t i w) p).isSome ↔ ((nodeAt t p).isSome ∨ p <+: w)) := by
  intro w
  induction w with
  | nil =>
      intro t p
      cases p with
      | nil => simp [insertT_nil]
      | cons c ps =>
          rw [insertT_nil, nodeAt_mk_children _ _ _ _ (by simp)]
          simp [List.prefix_nil]
  | cons c cs ih =>
      intro t p
      cases p with
      | nil => simp [insertT_cons]
      | cons c' ps =>
          rw [insertT_cons, nodeAt_cons', Trie.children_mk, lookupChild_setChild]
          by_cases hc : c = c'
          · subst hc
            rw [if_pos rfl, Option.some_bind, ih, nodeAt_cons']
            cases hl : lookupChild t.children c with
            | some ch =>
                have hcon : childOrNew t c = ch := by simp [childOrNew, hl]
                rw [hcon, Option.some_bind]
                have hX : (nodeAt (Trie.node ch.children ch.endS (insert i ch.part)) ps).isSome
                    = (nodeAt ch ps).isSome := by
                  rw [nodeAt_isSome_congr ch.children ch.endS (insert i ch.part) ch.endS ch.part,
                    Trie.eta]
                rw [hX]
                simp [List.cons_prefix_cons]
            | none =>
                have hcon : childOrNew t c = Trie.node [] ∅ ∅ := by simp [childOrNew, hl]
                rw [hcon, Option.none_bind]
                have hX : (nodeAt (Trie.node ([] : List (Char × Trie)) ∅ (insert i ∅)) ps).isSome
                    ↔ ps = [] := by
                  cases ps with
                  | nil => simp
                  | cons d ds => simp [nodeAt_cons', lookupChild]
                simp only [Trie.children_mk, Trie.endS_mk, Trie.part_mk] at hX ⊢
                rw [hX]
                simp [List.cons_prefix_cons]
                intro h
                subst h
                exact List.nil_prefix
          · rw [if_neg hc, ← nodeAt_cons']
            simp [List.cons_prefix_cons]
            intro h
            exact absurd h.symm hc

lemma oldEndS_nil (t : Trie) : oldEndS t [] = t.endS := rfl

lemma oldPart_nil (t : Trie) : oldPart t [] = t.part := rfl

lemma oldEndS_cons (t : Trie) (c : Char) (q : Str) :
    oldEndS t (c :: q) =
      ((lookupChild t.children c).map (fun ch => oldEndS ch q)).getD ∅ := by
  cases h : lookupChild t.children c <;> simp [oldEndS, nodeAt_cons', h]

lemma oldPart_cons (t : Trie) (c : Char) (q : Str) :
    oldPart t (c :: q) =
      ((lookupChild t.children c).map (fun ch => oldPart ch q)).getD ∅ := by
  cases h : lookupChild t.children c <;> simp [oldPart, nodeAt_cons', h]

lemma oldEndS_congr_part (cs : List (Char × Trie)) (e p₁ p₂ : Finset ℕ) (q : Str) :
    oldEndS (.node cs e p₁) q = oldEndS (.node cs e p₂) q := by
  cases q with
  | nil => rfl
  | cons c rest =>
      simp only [oldEndS]
      rw [nodeAt_congr_children cs e p₁ e p₂ (c :: rest) (by simp)]

lemma oldPart_congr_endS (cs : List (Char × Trie)) (e₁ e₂ p : Finset ℕ) (q : Str)
    (hq : q ≠ []) :
    oldPart (.node cs e₁ p) q = oldPart (.node cs e₂ p) q := by
  cases q with
  | nil => exact absurd rfl hq
  | cons c rest =>
      simp only [oldPart]
      rw [nodeAt_congr_children cs e₁ p e₂ p (c :: rest) (by simp)]

lemma oldPart_congr_part (cs : List (Char × Trie)) (e p₁ p₂ : Finset ℕ) (q : Str) (hq : q ≠ []) :
    oldPart (.node cs e p₁) q = oldPart (.node cs e p₂) q := by
  cases q with
  | nil => exact absurd rfl hq
  | cons c rest =>
      simp only [oldPart]
      rw [nodeAt_congr_children cs e p₁ e p₂ (c :: rest) (by simp)]

lemma oldEndS_insertT (i : ℕ) :
    ∀ (w : Str) (t : Trie) (p : Str),
      oldEndS (insertT t i w) p = oldEndS t p ∪ (if p = w then {i} else ∅) := by
  intro w
  induction w with
  | nil =>
      intro t p
      cases p with
      | nil => simp [insertT_nil, oldEndS_nil, Finset.insert_eq, Finset.union_comm]
      | cons c ps =>
          rw [insertT_nil]
          simp only [oldEndS, nodeAt_mk_children _ _ _ _ (by simp : (c :: ps : Str) ≠ [])]
          simp
  | cons c cs ih =>
      intro t p
      cases p with
      | nil =>
          rw [insertT_cons]
          simp [oldEndS_nil]
      | cons c' ps =>
          rw [insertT_cons, oldEndS_cons, Trie.children_mk, lookupChild_setChild]
          by_cases hc : c = c'
          · subst hc
            rw [if_pos rfl, Option.map_some', Option.getD_some, ih]
            have hX : oldEndS (Trie.node (childOrNew t c).children (childOrNew t c).endS
                (insert i (childOrNew t c).part)) ps = oldEndS (childOrNew t c) ps := by
              rw [oldEndS_congr_part _ _ _ (childOrNew t c).part, Trie.eta]
            rw [hX, oldEndS_cons]
            cases hl : lookupChild t.children c with
            | some ch =>
                have hcon : childOrNew t c = ch := by simp [childOrNew, hl]
                rw [hcon]
                by_cases hps : ps = cs <;> simp [hps]
            | none =>
                have hcon : childOrNew t c = Trie.node [] ∅ ∅ := by simp [childOrNew, hl]
                have hE : oldEndS (childOrNew t c) ps = ∅ := by
                  rw [hcon]
                  cases ps with
                  | nil => rfl
                  | cons d ds => simp [oldEndS_cons, lookupChild]
                rw [hE]
                by_cases hps : ps = cs <;> simp [hps]
          · rw [if_neg hc, ← oldEndS_cons]
            have hne : ¬ (c' :: ps = c :: cs) := by
              intro h
              exact hc (by injection h with h1 h2; exact h1.symm)
            simp [hne]

lemma oldPart_insertT_aux (i : ℕ) (t : Trie) (c : Char) (ps : Str) :
    oldPart (Trie.node (childOrNew t c).children (childOrNew t c).endS
        (insert i (childOrNew t c).part)) ps =
      if ps = [] then insert i (oldPart t (c :: ps)) else oldPart t (c :: ps) := by
  cases hl : lookupChild t.children c with
  | some ch =>
      have hcon : childOrNew t c = ch := by simp [childOrNew, hl]
      rw [hcon]
      cases ps with
      | nil => simp [oldPart_nil, oldPart_cons, hl]
      | cons d ds =>
          rw [oldPart_congr_part ch.children ch.endS (insert i ch.part) ch.part _ (by simp),
            Trie.eta]
          simp [oldPart_cons t c, hl]
  | none =>
      have hcon : childOrNew t c = Trie.node [] ∅ ∅ := by simp [childOrNew, hl]
      rw [hcon]
      cases ps with
      | nil => simp [oldPart_nil, oldPart_cons, hl]
      | cons d ds =>
          simp [oldPart_cons, lookupChild, hl]

lemma oldPart_insertT (i : ℕ) :
    ∀ (w : Str) (t : Trie) (p : Str),
      oldPart (insertT t i w) p =
        if p = w then (oldPart t p).erase i
        else if p ≠ [] ∧ p <+: w then insert i (oldPart t p)
        else oldPart t p := by
  intro w
  induction w with
  | nil =>
      intro t p
      cases p with
      | nil => simp [insertT_nil, oldPart_nil]
      | cons c ps =>
          rw [insertT_nil]
          simp only [oldPart, nodeAt_mk_children _ _ _ _ (by simp : (c :: ps : Str) ≠ [])]
          simp [List.prefix_nil]
  | cons c cs ih =>
      intro t p
      cases p with
      | nil =>
          rw [insertT_cons]
          simp [oldPart_nil]
      | cons c' ps =>
          rw [insertT_cons, oldPart_cons, Trie.children_mk, lookupChild_setChild]
          by_cases hc : c = c'
          · subst hc
            rw [if_pos rfl, Option.map_some', Option.getD_some, ih, oldPart_insertT_aux]
            by_cases hps : ps = cs
            · subst hps
              by_cases hn : ps = []
              · subst hn
                simp [Finset.erase_insert_eq_erase]
              · simp [hn]
            · have hne : ¬ (c :: ps = c :: cs) := by simp [hps]
              by_cases hn : ps = []
              · subst hn
                have hpre : ([] : Str) <+: cs := List.nil_prefix
                have hcons : (c :: [] : Str) <+: c :: cs := List.cons_prefix_cons.mpr ⟨rfl, hpre⟩
                simp [hps, hne, hcons]
              · by_cases hpre : ps <+: cs
                · have hcons : (c :: ps : Str) <+: c :: cs :=
                    List.cons_prefix_cons.mpr ⟨rfl, hpre⟩
                  simp [hps, hn, hne, hcons, hpre]
                · have hcons : ¬ ((c :: ps : Str) <+: c :: cs) := by
                    intro h
                    exact hpre (List.cons_prefix_cons.mp h).2
                  simp [hps, hn, hne, hcons, hpre]
          · rw [if_neg hc, ← oldPart_cons]
            have hne : ¬ (c' :: ps = c :: cs) := by
              intro h
              exact hc (by injection h with h1 h2; exact h1.symm)
            have hcons : ¬ ((c' :: ps : Str) <+: c :: cs) := by
              intro h
              exact hc (List.cons_prefix_cons.mp h).1.symm
            simp [hne, hcons]

/-- Indices whose string (among the processed `(index, string)` pairs)
terminates exactly at path `p`: the intended value of a node's `end` set. -/
def endSpec (done : List (ℕ × Str)) (p : Str) : Finset ℕ :=
  ((done.filter (fun q => decide (q.2 = p))).map Prod.fst).toFinset

/-- Indices whose string has path `p` as a strict prefix. -/
def strictPartSpec (done : List (ℕ × Str)) (p : Str) : Finset ℕ :=
  ((done.filter (fun q => decide (p <+: q.2 ∧ p ≠ q.2))).map Prod.fst).toFinset

/-- The intended value of a node's `part` set; the root keeps the full
universe it was initialised with. -/
def partSpec (univ : Finset ℕ) (done : List (ℕ × Str)) (p : Str) : Finset ℕ :=
  if p = [] then univ else strictPartSpec done p

/-- Full characterisation of a trie built by inserting the pairs `done`
into a root initialised with `part = univ`: which nodes exist, and the
`end`/`part` sets of every path (`∅` at absent paths). -/
def Describes (univ : Finset ℕ) (done : List (ℕ × Str)) (t : Trie) : Prop :=
  (∀ p : Str, ((nodeAt t p).isSome ↔ (p = [] ∨ ∃ q ∈ done, p <+: q.2)))
  ∧ (∀ p : Str, oldEndS t p = endSpec done p)
  ∧ (∀ p : Str, oldPart t p = partSpec univ done p)

lemma mem_endSpec (done : List (ℕ × Str)) (p : Str) (x : ℕ) :
    x ∈ endSpec done p ↔ ∃ q ∈ done, q.1 = x ∧ q.2 = p := by
  simp only [endSpec, List.mem_toFinset, List.mem_map, List.mem_filter, decide_eq_true_eq]
  constructor
  · rintro ⟨q, ⟨hq, hp⟩, hx⟩
    exact ⟨q, hq, hx, hp⟩
  · rintro ⟨q, hq, hx, hp⟩
    exact ⟨q, ⟨hq, hp⟩, hx⟩

lemma mem_strictPartSpec (done : List (ℕ × Str)) (p : Str) (x : ℕ) :
    x ∈ strictPartSpec done p ↔ ∃ q ∈ done, q.1 = x ∧ p <+: q.2 ∧ p ≠ q.2 := by
  simp only [strictPartSpec, List.mem_toFinset, List.mem_map, List.mem_filter,
    decide_eq_true_eq]
  constructor
  · rintro ⟨q, ⟨hq, hp⟩, hx⟩
    exact ⟨q, hq, hx, hp⟩
  · rintro ⟨q, hq, hx, hp⟩
    exact ⟨q, ⟨hq, hp⟩, hx⟩

lemma endSpec_append (done : List (ℕ × Str)) (i : ℕ) (w p : Str) :
    endSpec (done ++ [(i, w)]) p = endSpec done p ∪ (if p = w then {i} else ∅) := by
  ext x
  rw [Finset.mem_union, mem_endSpec, mem_endSpec]
  constructor
  · rintro ⟨q, hq, hx, hp⟩
    rcases List.mem_append.mp hq with hq | hq
    · exact Or.inl ⟨q, hq, hx, hp⟩
    · have hqe : q = (i, w) := by simpa using hq
      subst hqe
      right
      rw [if_pos hp.symm, Finset.mem_singleton]
      exact hx.symm
  · rintro (⟨q, hq, hx, hp⟩ | hx)
    · exact ⟨q, List.mem_append.mpr (Or.inl hq), hx, hp⟩
    · by_cases hp : p = w
      · rw [if_pos hp, Finset.mem_singleton] at hx
        exact ⟨(i, w), List.mem_append.mpr (Or.inr (by simp)), by simp [hx], hp.symm⟩
      · rw [if_neg hp] at hx
        exact absurd hx (Finset.not_mem_empty x)

lemma strictPartSpec_append (done : List (ℕ × Str)) (i : ℕ) (w p : Str) :
    strictPartSpec (done ++ [(i, w)]) p
      = strictPartSpec done p ∪ (if p <+: w ∧ p ≠ w then {i} else ∅) := by
  ext x
  rw [Finset.mem_union, mem_strictPartSpec, mem_strictPartSpec]
  constructor
  · rintro ⟨q, hq, hx, hp⟩
    rcases List.mem_append.mp hq with hq | hq
    · exact Or.inl ⟨q, hq, hx, hp⟩
    · have hqe : q = (i, w) := by simpa using hq
      subst hqe
      right
      rw [if_pos hp, Finset.mem_singleton]
      exact hx.symm
  · rintro (⟨q, hq, hx, hp⟩ | hx)
    · exact ⟨q, List.mem_append.mpr (Or.inl hq), hx, hp⟩
    · by_cases hp : p <+: w ∧ p ≠ w
      · rw [if_pos hp, Finset.mem_singleton] at hx
        exact ⟨(i, w), List.mem_append.mpr (Or.inr (by simp)), by simp [hx], hp⟩
      · rw [if_neg hp] at hx
        exact absurd hx (Finset.not_mem_empty x)

lemma describes_insertT (univ : Finset ℕ) (done : List (ℕ × Str)) (t : Trie)
    (i : ℕ) (w : Str) (H : Describes univ done t) (hw : w ≠ [])
    (hfresh : ∀ q ∈ done, q.1 ≠ i) :
    Describes univ (done ++ [(i, w)]) (insertT t i w) := by
  obtain ⟨He, Hend, Hpart⟩ := H
  refine ⟨?_, ?_, ?_⟩
  · intro p
    rw [nodeAt_insertT_isSome, He]
    constructor
    · rintro ((hp | ⟨q, hq, hpre⟩) | hpre)
      · exact Or.inl hp
      · exact Or.inr ⟨q, List.mem_append.mpr (Or.inl hq), hpre⟩
      · exact Or.inr ⟨(i, w), List.mem_append.mpr (Or.inr (by simp)), hpre⟩
    · rintro (hp | ⟨q, hq, hpre⟩)
      · exact Or.inl (Or.inl hp)
      · rcases List.mem_append.mp hq with hq | hq
        · exact Or.inl (Or.inr ⟨q, hq, hpre⟩)
        · have hqe : q = (i, w) := by simpa using hq
          subst hqe
          exact Or.inr hpre
  · intro p
    rw [oldEndS_insertT, Hend, endSpec_append]
  · intro p
    rw [oldPart_insertT, Hpart]
    by_cases hp : p = w
    · subst hp
      rw [if_pos rfl]
      have hpn : p ≠ [] := hw
      rw [partSpec, if_neg hpn, partSpec, if_neg hpn, strictPartSpec_append]
      have : ¬ (p <+: p ∧ p ≠ p) := by simp
      rw [if_neg this, Finset.union_empty]
      apply Finset.erase_eq_of_not_mem
      rw [mem_strictPartSpec]
      rintro ⟨q, hq, hqi, -⟩
      exact hfresh q hq hqi
    · rw [if_neg hp]
      by_cases hnil : p = []
      · subst hnil
        have : ¬ ((¬([] : Str) = []) ∧ ([] : Str) <+: w) := by simp
        rw [if_neg this, partSpec, if_pos rfl, partSpec, if_pos rfl]
      · rw [partSpec, if_neg hnil, partSpec, if_neg hnil, strictPartSpec_append]
        by_cases hpre : p <+: w
        · rw [if_pos ⟨hnil, hpre⟩, if_pos ⟨hpre, hp⟩]
          rw [Finset.insert_eq, Finset.union_comm]
        · have h1 : ¬ ((¬ p = []) ∧ p <+: w) := fun h => hpre h.2
          have h2 : ¬ (p <+: w ∧ p ≠ w) := fun h => hpre h.1
          rw [if_neg h1, if_neg h2, Finset.union_empty]

lemma describes_foldl (univ : Finset ℕ) :
    ∀ (l : List (ℕ × Str)) (t : Trie) (done : List (ℕ × Str)),
      Describes univ done t →
      (∀ q ∈ l, q.2 ≠ []) →
      (∀ q ∈ l, ∀ q' ∈ done, q'.1 ≠ q.1) →
      List.Pairwise (fun a b => a.1 ≠ b.1) l →
      Describes univ (done ++ l) (l.foldl (fun tt q => insertT tt q.1 q.2) t) := by
  intro l
  induction l with
  | nil =>
      intro t done H _ _ _
      simpa using H
  | cons hd tl ih =>
      intro t done H hne hfresh hpw
      have H' : Describes univ (done ++ [(hd.1, hd.2)]) (insertT t hd.1 hd.2) :=
        describes_insertT univ done t hd.1 hd.2 H (hne hd (by simp))
          (fun q' hq' => hfresh hd (by simp) q' hq')
      have hstep : List.foldl (fun tt q => insertT tt q.1 q.2) t (hd :: tl)
          = List.foldl (fun tt q => insertT tt q.1 q.2) (insertT t hd.1 hd.2) tl := rfl
      rw [hstep, show done ++ hd :: tl = (done ++ [(hd.1, hd.2)]) ++ tl by simp]
      apply ih _ _ H'
      · intro q hq
        exact hne q (List.mem_cons_of_mem _ hq)
      · intro q hq q' hq'
        rcases List.mem_append.mp hq' with hq' | hq'
        · exact hfresh q (List.mem_cons_of_mem _ hq) q' hq'
        · have : q' = (hd.1, hd.2) := by simpa using hq'
          subst this
          exact (List.pairwise_cons.mp hpw).1 q hq
      · exact (List.pairwise_cons.mp hpw).2

lemma describes_root (univ : Finset ℕ) :
    Describes univ [] (.node [] ∅ univ) := by
  refine ⟨?_, ?_, ?_⟩
  · intro p
    cases p with
    | nil => simp
    | cons c ps => simp [nodeAt_cons', lookupChild]
  · intro p
    cases p with
    | nil => simp [oldEndS_nil, endSpec]
    | cons c ps => simp [oldEndS_cons, lookupChild, endSpec]
  · intro p
    cases p with
    | nil => simp [oldPart_nil, partSpec]
    | cons c ps =>
        simp [oldPart_cons, lookupChild, partSpec, strictPartSpec]

lemma enum_pairwise_fst (strings : List Str) :
    List.Pairwise (fun a b => a.1 ≠ b.1) strings.enum := by
  have : ∀ n : ℕ, List.Pairwise (fun (a b : ℕ × Str) => a.1 ≠ b.1) (strings.enumFrom n) := by
    induction strings with
    | nil => intro n; simp
    | cons hd tl ih =>
        intro n
        rw [List.enumFrom_cons, List.pairwise_cons]
        refine ⟨?_, ih (n + 1)⟩
        intro q hq
        have := List.le_fst_of_mem_enumFrom hq
        omega
  exact this 0

lemma describes_make_tree (univ : Finset ℕ) (strings : List Str)
    (hne : ∀ s ∈ strings, s ≠ []) :
    Describes univ strings.enum (make_tree univ strings) := by
  have := describes_foldl univ strings.enum (.node [] ∅ univ) []
    (describes_root univ)
    (fun q hq => hne q.2 (by
      have : strings.get? q.1 = some q.2 := List.mk_mem_enum_iff_get?.mp (by
        obtain ⟨a, b⟩ := q
        exact hq)
      exact List.get?_mem this))
    (fun q _ q' hq' => absurd hq' (List.not_mem_nil q'))
    (enum_pairwise_fst strings)
  simpa [make_tree] using this

lemma nodeAt_append (t : Trie) :
    ∀ (r s : Str), nodeAt t (r ++ s) = (nodeAt t r).bind (fun v => nodeAt v s) := by
  intro r
  induction r generalizing t with
  | nil => intro s; simp
  | cons c rest ih =>
      intro s
      rw [List.cons_append, nodeAt_cons', nodeAt_cons']
      cases hl : lookupChild t.children c with
      | none => simp
      | some ch => simp [ih]

lemma search_cons (t : Trie) (c : Char) (q : Str) :
    search_in_tree t (c :: q) =
      ((lookupChild t.children c).map (fun ch => ch.endS ∪ search_in_tree ch q)).getD ∅ := by
  cases h : lookupChild t.children c <;> simp [search_in_tree, h]

lemma oldEndS_of_nodeAt (t : Trie) (p : Str) (u : Trie) (h : nodeAt t p = some u) :
    u.endS = oldEndS t p := by
  simp [oldEndS, h]

lemma oldPart_of_nodeAt (t : Trie) (p : Str) (u : Trie) (h : nodeAt t p = some u) :
    u.part = oldPart t p := by
  simp [oldPart, h]

lemma mem_search_in_tree (univ : Finset ℕ) (done : List (ℕ × Str)) (T : Trie)
    (HT : Describes univ done T) :
    ∀ (w p : Str) (u : Trie), nodeAt T p = some u → ∀ x : ℕ,
      (x ∈ search_in_tree u w ↔
        ((∃ q ∈ done, q.1 = x ∧ ∃ k, 1 ≤ k ∧ k ≤ w.length ∧ q.2 = p ++ w.take k)
         ∨ ((nodeAt T (p ++ w)).isSome ∧ x ∈ partSpec univ done (p ++ w)))) := by
  intro w
  induction w with
  | nil =>
      intro p u hu x
      rw [show search_in_tree u [] = u.part from rfl]
      rw [oldPart_of_nodeAt T p u hu, HT.2.2]
      simp only [List.append_nil]
      constructor
      · intro hx
        exact Or.inr ⟨by rw [hu]; rfl, hx⟩
      · rintro (⟨q, _, _, k, hk1, hk2, _⟩ | ⟨_, hx⟩)
        · simp at hk2
          omega
        · exact hx
  | cons c cs ih =>
      intro p u hu x
      rw [search_cons]
      have hpc : nodeAt T (p ++ [c]) = (lookupChild u.children c).bind (fun v => nodeAt v []) := by
        rw [nodeAt_append, hu, Option.some_bind, nodeAt_cons']
      cases hl : lookupChild u.children c with
      | none =>
          rw [hl] at hpc
          simp only [hl, Option.map_none', Option.getD_none]
          have hnone : nodeAt T (p ++ [c]) = none := by rw [hpc]; rfl
          constructor
          · intro hx
            exact absurd hx (Finset.not_mem_empty x)
          · rintro (⟨q, hq, hx, k, hk1, hk2, hq2⟩ | ⟨hsome, _⟩)
            · have hpre : (p ++ [c]) <+: q.2 := by
                rw [hq2]
                cases k with
                | zero => omega
                | succ k' =>
                    rw [List.take_succ_cons]
                    refine ⟨cs.take k', by simp⟩
              have : (nodeAt T (p ++ [c])).isSome := by
                rw [(HT.1 (p ++ [c]))]
                exact Or.inr ⟨q, hq, hpre⟩
              rw [hnone] at this
              simp at this
            · have : nodeAt T (p ++ c :: cs) = none := by
                rw [show p ++ c :: cs = (p ++ [c]) ++ cs by simp, nodeAt_append, hnone]
                rfl
              rw [this] at hsome
              simp at hsome
      | some ch =>
          rw [hl] at hpc
          have hch : nodeAt T (p ++ [c]) = some ch := by rw [hpc]; rfl
          simp only [hl, Option.map_some', Option.getD_some, Finset.mem_union]
          rw [ih (p ++ [c]) ch hch x]
          rw [oldEndS_of_nodeAt T (p ++ [c]) ch hch, HT.2.1, mem_endSpec]
          have happ : (p ++ [c]) ++ cs = p ++ c :: cs := by simp
          rw [happ]
          constructor
          · rintro (⟨q, hq, hx, hq2⟩ | (⟨q, hq, hx, k, hk1, hk2, hq2⟩ | hrest))
            · refine Or.inl ⟨q, hq, hx, 1, le_refl 1, by simp, ?_⟩
              rw [List.take_succ_cons, List.take_zero]
              exact hq2
            · refine Or.inl ⟨q, hq, hx, k + 1, by omega, by simp; omega, ?_⟩
              rw [List.take_succ_cons, hq2]
              simp
            · exact Or.inr hrest
          · rintro (⟨q, hq, hx, k, hk1, hk2, hq2⟩ | hrest)
            · cases k with
              | zero => omega
              | succ k' =>
                  rw [List.take_succ_cons] at hq2
                  cases Nat.eq_zero_or_pos k' with
                  | inl hz =>
                      subst hz
                      refine Or.inl ⟨q, hq, hx, ?_⟩
                      rw [hq2]
                      simp
                  | inr hpos =>
                      refine Or.inr (Or.inl ⟨q, hq, hx, k', hpos, by simp at hk2; omega, ?_⟩)
                      rw [hq2]
                      simp
            · exact Or.inr (Or.inr hrest)

lemma mem_enum_iff_getD (strings : List Str) (x : ℕ) (s : Str) :
    (x, s) ∈ strings.enum ↔ x < strings.length ∧ strings.getD x [] = s := by
  rw [List.mk_mem_enum_iff_get?]
  constructor
  · intro h
    rcases List.get?_eq_some.mp h with ⟨hlt, hget⟩
    refine ⟨hlt, ?_⟩
    show (strings.get? x).getD [] = s
    rw [h]
    rfl
  · rintro ⟨hx, hs⟩
    rw [List.get?_eq_get hx]
    have : strings.get ⟨x, hx⟩ = s := by
      rw [← hs]
      show _ = (strings.get? x).getD []
      rw [List.get?_eq_get hx]
      rfl
    rw [this]

lemma getD_mem (strings : List Str) (x : ℕ) (hx : x < strings.length) :
    strings.getD x [] ∈ strings := by
  have : strings.getD x [] = strings.get ⟨x, hx⟩ := by
    show (strings.get? x).getD [] = _
    rw [List.get?_eq_get hx]
    rfl
  rw [this]
  exact strings.get_mem _ _

lemma nonempty_prefix_iff_take (s w : Str) :
    (s <+: w ∧ s ≠ []) ↔ ∃ k, 1 ≤ k ∧ k ≤ w.length ∧ s = w.take k := by
  constructor
  · rintro ⟨hpre, hne⟩
    refine ⟨s.length, ?_, List.IsPrefix.length_le hpre, List.prefix_iff_eq_take.mp hpre⟩
    cases s with
    | nil => exact absurd rfl hne
    | cons a as => simp
  · rintro ⟨k, hk1, hk2, hs⟩
    subst hs
    refine ⟨List.take_prefix k w, ?_⟩
    intro h
    have : min k w.length = 0 := by
      rw [← List.length_take k w, h]
      rfl
    omega

theorem search_in_tree_spec (strings : List Str)
    (hne : ∀ s ∈ strings, s ≠ []) (w : Str) :
    search_in_tree (make_tree (Finset.range strings.length) strings) w
      = (Finset.range strings.length).filter
          (fun i => strings.getD i [] <+: w ∨ (w <+: strings.getD i [] ∧ w ≠ strings.getD i [])) := by
  have HT := describes_make_tree (Finset.range strings.length) strings hne
  ext x
  rw [Finset.mem_filter, Finset.mem_range]
  rw [mem_search_in_tree _ _ _ HT w [] _ rfl x]
  simp only [List.nil_append]
  constructor
  · rintro (⟨q, hq, hx, k, hk1, hk2, hq2⟩ | ⟨hsome, hpart⟩)
    · obtain ⟨i, s⟩ := q
      simp only at hx hq2
      subst hx
      rcases (mem_enum_iff_getD strings i s).mp hq with ⟨hlt, hgd⟩
      refine ⟨hlt, Or.inl ?_⟩
      rw [hgd, hq2]
      exact List.take_prefix k w
    · by_cases hw : w = []
      · subst hw
        rw [partSpec, if_pos rfl, Finset.mem_range] at hpart
        refine ⟨hpart, Or.inr ⟨List.nil_prefix, ?_⟩⟩
        intro h
        exact hne _ (getD_mem strings x hpart) h.symm
      · rw [partSpec, if_neg hw, mem_strictPartSpec] at hpart
        rcases hpart with ⟨q, hq, hx, hpre, hne'⟩
        obtain ⟨i, s⟩ := q
        simp only at hx hpre hne'
        subst hx
        rcases (mem_enum_iff_getD strings i s).mp hq with ⟨hlt, hgd⟩
        rw [hgd]
        exact ⟨hlt, Or.inr ⟨hpre, hne'⟩⟩
  · rintro ⟨hlt, hA | ⟨hpre, hwne⟩⟩
    · have hsne : strings.getD x [] ≠ [] := hne _ (getD_mem strings x hlt)
      rcases (nonempty_prefix_iff_take _ w).mp ⟨hA, hsne⟩ with ⟨k, hk1, hk2, hs⟩
      exact Or.inl ⟨(x, strings.getD x []),
        (mem_enum_iff_getD strings x _).mpr ⟨hlt, rfl⟩, rfl, k, hk1, hk2, hs⟩
    · have hmem : (x, strings.getD x []) ∈ strings.enum :=
        (mem_enum_iff_getD strings x _).mpr ⟨hlt, rfl⟩
      refine Or.inr ⟨?_, ?_⟩
      · rw [HT.1 w]
        by_cases hw : w = []
        · exact Or.inl hw
        · exact Or.inr ⟨(x, strings.getD x []), hmem, hpre⟩
      · by_cases hw : w = []
        · rw [partSpec, if_pos hw, Finset.mem_range]
          exact hlt
        · rw [partSpec, if_neg hw, mem_strictPartSpec]
          exact ⟨(x, strings.getD x []), hmem, rfl, hpre, hwne⟩

theorem make_tree_nodes_spec (strings : List Str) (hne : ∀ s ∈ strings, s ≠ []) :
    (make_tree (Finset.range strings.length) strings).part = Finset.range strings.length
    ∧ (make_tree (Finset.range strings.length) strings).endS = ∅
    ∧ ∀ (p : Str) (u : Trie),
        nodeAt (make_tree (Finset.range strings.length) strings) p = some u →
        (Disjoint u.endS u.part ∧ ∀ i : ℕ, (i ∈ u.endS ↔ (i, p) ∈ strings.enum)) := by
  have HT := describes_make_tree (Finset.range strings.length) strings hne
  have hroot_part : (make_tree (Finset.range strings.length) strings).part
      = Finset.range strings.length := by
    have := HT.2.2 []
    rw [oldPart_nil, partSpec, if_pos rfl] at this
    exact this
  have hroot_end : (make_tree (Finset.range strings.length) strings).endS = ∅ := by
    have := HT.2.1 []
    rw [oldEndS_nil] at this
    rw [this]
    ext x
    rw [mem_endSpec]
    simp only [Finset.not_mem_empty, iff_false]
    rintro ⟨q, hq, -, hq2⟩
    rcases (mem_enum_iff_getD strings q.1 q.2).mp (by simpa using hq) with ⟨hlt, hgd⟩
    exact hne q.2 (by rw [← hgd]; exact getD_mem strings q.1 hlt) hq2
  refine ⟨hroot_part, hroot_end, ?_⟩
  intro p u hu
  have hend : u.endS = endSpec strings.enum p := by
    rw [oldEndS_of_nodeAt _ _ _ hu, HT.2.1]
  have hpart : u.part = partSpec (Finset.range strings.length) strings.enum p := by
    rw [oldPart_of_nodeAt _ _ _ hu, HT.2.2]
  constructor
  · rw [Finset.disjoint_left]
    intro x hxe hxp
    rw [hend, mem_endSpec] at hxe
    rw [hpart] at hxp
    rcases hxe with ⟨q, hq, hqx, hq2⟩
    by_cases hp : p = []
    · rcases (mem_enum_iff_getD strings q.1 q.2).mp (by simpa using hq) with ⟨hlt, hgd⟩
      exact hne q.2 (by rw [← hgd]; exact getD_mem strings q.1 hlt) (hq2.trans hp)
    · rw [partSpec, if_neg hp, mem_strictPartSpec] at hxp
      rcases hxp with ⟨q', hq', hq'x, hpre, hne'⟩
      rcases (mem_enum_iff_getD strings q.1 q.2).mp (by simpa using hq) with ⟨-, hgd⟩
      rcases (mem_enum_iff_getD strings q'.1 q'.2).mp (by simpa using hq') with ⟨-, hgd'⟩
      have hqq : q.2 = q'.2 := by rw [← hgd, ← hgd', hqx, hq'x]
      exact hne' (by rw [← hq2, hqq])
  · intro i
    rw [hend, mem_endSpec]
    constructor
    · rintro ⟨q, hq, hqx, hq2⟩
      obtain ⟨j, s⟩ := q
      simp only at hqx hq2
      subst hqx
      subst hq2
      exact hq
    · intro h
      exact ⟨(i, p), h, rfl, rfl⟩

/-- `ModifiedPCP.prefix_filter`: indices whose two lines have a prefix
relation.  In the source this reads the module-level globals
`a_lines`/`b_lines` (not `self.a_strings`/`self.b_strings`); the globals
are therefore explicit parameters here.  `s_options_total` is
`range(len(self.a_strings))`, passed as the bound `n`. -/
def prefixFilter (n : ℕ) (a_lines b_lines : List Str) : Finset ℕ :=
  (Finset.range n).filter (fun s =>
    b_lines.getD s [] <+: a_lines.getD s [] ∨ a_lines.getD s [] <+: b_lines.getD s [])

/-- `ModifiedPCP.postfix_filter`: indices whose two lines have a suffix
relation; like the prefix filter it reads the globals `a_lines`/`b_lines`. -/
def postfixFilter (n : ℕ) (a_lines b_lines : List Str) : Finset ℕ :=
  (Finset.range n).filter (fun s =>
    b_lines.getD s [] <:+ a_lines.getD s [] ∨ a_lines.getD s [] <:+ b_lines.getD s [])

/-- `itertools.combinations(xs, k)`: all sorted `k`-element sublists of
`xs`, in lexicographic order of positions. -/
def combos : List ℕ → ℕ → List (List ℕ)
  | _, 0 => [[]]
  | [], _ + 1 => []
  | x :: xs, k + 1 => (combos xs k).map (fun c => x :: c) ++ combos xs (k + 1)

/-- The subsets enumerated by `length_balance_filter`: for each size
`s_number` in `1..n`, all `s_number`-combinations of `range n`. -/
def allCombos (n : ℕ) : List (List ℕ) :=
  (List.range n).bind (fun k => combos (List.range n) (k + 1))

/-- `d.setdefault(key, []).append(c)` on an insertion-ordered dict
represented as an association list. -/
def dictAppend : List (ℕ × List (List ℕ)) → ℕ → List ℕ → List (ℕ × List (List ℕ))
  | [], k, c => [(k, [c])]
  | (k', cs) :: rest, k, c =>
      if k' = k then (k', cs ++ [c]) :: rest else (k', cs) :: dictAppend rest k c

/-- `sum([…_strings_length[i] for i in combination])`. -/
def sumLen (strings : List Str) (c : List ℕ) : ℕ :=
  (c.map (fun i => (strings.getD i []).length)).sum

/-- Truthiness of `set(combination).intersection(s)`. -/
def intersects (c : List ℕ) (s : Finset ℕ) : Bool :=
  c.any (fun i => decide (i ∈ s))

/-- `ModifiedPCP.length_balance_filter`: keep the combinations whose two
length sums agree and which meet both candidate sets, grouped by the
common sum in an insertion-ordered dict. -/
def length_balance_filter (a_strings b_strings : List Str)
    (s_options_for_beginning s_options_for_ending : Finset ℕ) :
    List (ℕ × List (List ℕ)) :=
  (allCombos a_strings.length).foldl
    (fun d c =>
      if sumLen a_strings c = sumLen b_strings c
          ∧ intersects c s_options_for_beginning
          ∧ intersects c s_options_for_ending
      then dictAppend d (sumLen a_strings c) c
      else d) []

/-- `''.join([…_strings[s] for s in combination])`. -/
def joinStrs (strings : List Str) (c : List ℕ) : Str :=
  (c.map (fun s => strings.getD s [])).join

/-- `ModifiedPCP.elements_balance_filter`: keep the combinations whose two
joined strings have equal character multisets (`Counter` equality). -/
def elements_balance_filter (a_strings b_strings : List Str)
    (d : List (ℕ × List (List ℕ))) : List (ℕ × List (List ℕ)) :=
  d.foldl (fun acc kv =>
    kv.2.foldl (fun acc' c =>
      if (joinStrs a_strings c : Multiset Char) = (joinStrs b_strings c : Multiset Char)
      then dictAppend acc' kv.1 c
      else acc') acc) []

/-- Insert one key-value pair into a key-sorted association list. -/
def insertSorted : (ℕ × List (List ℕ)) → List (ℕ × List (List ℕ)) → List (ℕ × List (List ℕ))
  | kv, [] => [kv]
  | kv, kv' :: rest => if kv.1 ≤ kv'.1 then kv :: kv' :: rest else kv' :: insertSorted kv rest

/-- `sorted(d.items())`: the dict items sorted by key (the keys are
distinct, so tuple comparison never reaches the second component). -/
def sortByKey : List (ℕ × List (List ℕ)) → List (ℕ × List (List ℕ))
  | [] => []
  | kv :: rest => insertSorted kv (sortByKey rest)

/-- Python string comparison `a < b` (lexicographic by code point, a
proper prefix being smaller). -/
def lexLt : Str → Str → Bool
  | [], [] => false
  | [], _ :: _ => true
  | _ :: _, [] => false
  | a :: as, b :: bs => if a < b then true else if b < a then false else lexLt as bs

/-- The update of `self.final_sequence` on recording `a_sequence_new`:
`if not final: final = new` / `else: final = min(final, new)`, where the
empty string is Python-falsy. -/
def minAcc (final s : Str) : Str :=
  if final = [] then s else if lexLt s final then s else final

/-- Python slice `l[start:stop]` (for `start ≤ stop`, the only case `dfs`
produces). -/
def pySlice (l : Str) (start stop : ℕ) : Str :=
  (l.drop start).take (stop - start)

/-- The per-combination context read by `dfs` from `self`. -/
structure Ctx where
  a_strings : List Str
  b_strings : List Str
  a_tree : Trie
  b_tree : Trie
  s_options_for_beginning : Finset ℕ
  combination : List ℕ

/-- Insert into an ascending list of naturals (structural recursion, so
that the definition evaluates inside the kernel). -/
def insNat (x : ℕ) : List ℕ → List ℕ
  | [] => [x]
  | y :: ys => if x ≤ y then x :: y :: ys else y :: insNat x ys

/-- Insertion sort for lists of naturals. -/
def insertionSortNat : List ℕ → List ℕ
  | [] => []
  | x :: xs => insNat x (insertionSortNat xs)

lemma insNat_perm (x : ℕ) : ∀ (l : List ℕ), (insNat x l).Perm (x :: l) := by
  intro l
  induction l with
  | nil => simp [insNat]
  | cons y ys ih =>
      rw [insNat]
      by_cases h : x ≤ y
      · rw [if_pos h]
      · rw [if_neg h]
        exact (List.Perm.cons y ih).trans (List.Perm.swap x y ys)

lemma insertionSortNat_perm : ∀ (l : List ℕ), (insertionSortNat l).Perm l := by
  intro l
  induction l with
  | nil => simp [insertionSortNat]
  | cons x xs ih =>
      rw [insertionSortNat]
      exact (insNat_perm x (insertionSortNat xs)).trans (List.Perm.cons x ih)

lemma insNat_sorted (x : ℕ) : ∀ (l : List ℕ), List.Sorted (· ≤ ·) l →
    List.Sorted (· ≤ ·) (insNat x l) := by
  intro l
  induction l with
  | nil => intro _; simp [insNat]
  | cons y ys ih =>
      intro hs
      rw [List.sorted_cons] at hs
      rw [insNat]
      by_cases h : x ≤ y
      · rw [if_pos h, List.sorted_cons]
        refine ⟨?_, List.sorted_cons.mpr hs⟩
        intro b hb
        rcases List.mem_cons.mp hb with hb | hb
        · omega
        · have := hs.1 b hb
          omega
      · rw [if_neg h, List.sorted_cons]
        refine ⟨?_, ih hs.2⟩
        intro b hb
        rcases List.mem_cons.mp ((insNat_perm x ys).mem_iff.mp hb) with hb | hb
        · subst hb
          omega
        · exact hs.1 b hb

lemma insertionSortNat_sorted : ∀ (l : List ℕ), List.Sorted (· ≤ ·) (insertionSortNat l) := by
  intro l
  induction l with
  | nil => simp [insertionSortNat]
  | cons x xs ih => exact insNat_sorted x _ ih

lemma insertionSortNat_eq_of_perm (l₁ l₂ : List ℕ) (h : l₁.Perm l₂) :
    insertionSortNat l₁ = insertionSortNat l₂ :=
  List.eq_of_perm_of_sorted
    ((insertionSortNat_perm l₁).trans (h.trans (insertionSortNat_perm l₂).symm))
    (insertionSortNat_sorted l₁) (insertionSortNat_sorted l₂)

/-- The ascending enumeration of a finite set of indices, used to iterate
Python's `for s in s_options` (a `set` with unspecified iteration order;
the `min`-accumulation makes the result order-independent). -/
def sortedOptions (s : Finset ℕ) : List ℕ :=
  Quotient.liftOn s.val insertionSortNat
    (fun _ _ h => insertionSortNat_eq_of_perm _ _ h)

lemma mem_insNat (x : ℕ) : ∀ (l : List ℕ) (y : ℕ), y ∈ insNat x l ↔ (y = x ∨ y ∈ l) := by
  intro l
  induction l with
  | nil => intro y; simp [insNat]
  | cons z zs ih =>
      intro y
      rw [insNat]
      by_cases h : x ≤ z
      · rw [if_pos h]
        simp
      · rw [if_neg h]
        simp only [List.mem_cons, ih]
        tauto

lemma mem_insertionSortNat : ∀ (l : List ℕ) (y : ℕ), y ∈ insertionSortNat l ↔ y ∈ l := by
  intro l
  induction l with
  | nil => intro y; simp [insertionSortNat]
  | cons z zs ih =>
      intro y
      rw [insertionSortNat, mem_insNat]
      simp [ih]

lemma mem_sortedOptions (s : Finset ℕ) (y : ℕ) : y ∈ sortedOptions s ↔ y ∈ s := by
  have : ∀ (m : Multiset ℕ), y ∈ Quotient.liftOn m insertionSortNat
      (fun _ _ h => insertionSortNat_eq_of_perm _ _ h) ↔ y ∈ m := by
    intro m
    induction m using Quotient.inductionOn with
    | h l => simpa using mem_insertionSortNat l y
  rw [sortedOptions, this, ← Finset.mem_def]

/-- The candidate set computed at the top of `dfs`: query the `a`-trie
with the pending suffix of `b_sequence` when `a_index < b_index`, the
`b`-trie symmetrically when `a_index > b_index`, and use the
beginning-candidate set when the indices are equal. -/
def sOptions (ctx : Ctx) (a_sequence b_sequence : Str) (a_index b_index : ℕ) : Finset ℕ :=
  if a_index < b_index then search_in_tree ctx.a_tree (b_sequence.drop a_index)
  else if b_index < a_index then search_in_tree ctx.b_tree (a_sequence.drop b_index)
  else ctx.s_options_for_beginning

/-- One iteration of the `for s in s_options` loop body of `dfs`: check
`s in self.combination and s not in s_taken`, extend both sequences,
verify the overlapping window, then either record the complete alignment
into `final_sequence` or recurse (`rec` is the recursive call). -/
def dfsStep (ctx : Ctx) (rec : Finset ℕ → Str → Str → ℕ → ℕ → Str → Str) (s : ℕ)
    (s_taken : Finset ℕ) (a_sequence b_sequence : Str) (a_index b_index : ℕ)
    (final : Str) : Str :=
  if s ∈ ctx.combination ∧ s ∉ s_taken then
    let a_string := ctx.a_strings.getD s []
    let b_string := ctx.b_strings.getD s []
    let a_sequence_new := a_sequence ++ a_string
    let b_sequence_new := b_sequence ++ b_string
    let a_index_new := a_index + a_string.length
    let b_index_new := b_index + b_string.length
    if pySlice a_sequence_new (min a_index b_index) (min a_index_new b_index_new)
        = pySlice b_sequence_new (min a_index b_index) (min a_index_new b_index_new) then
      if a_index_new = b_index_new then
        minAcc final a_sequence_new
      else
        rec (insert s s_taken) a_sequence_new b_sequence_new a_index_new b_index_new final
    else final
  else final

/-- The `for s in s_options` loop of `dfs`, threading `final_sequence`
through the iterations.  Python iterates a `set` in unspecified order;
the embedding receives the options as an (ascending) list — the
`min`-accumulation makes the final value independent of that order. -/
def dfsLoop (ctx : Ctx)
    (rec : Finset ℕ → Str → Str → ℕ → ℕ → Str → Str) :
    List ℕ → Finset ℕ → Str → Str → ℕ → ℕ → Str → Str
  | [], _, _, _, _, _, final => final
  | s :: rest, s_taken, a_sequence, b_sequence, a_index, b_index, final =>
      dfsLoop ctx rec rest s_taken a_sequence b_sequence a_index b_index
        (dfsStep ctx rec s s_taken a_sequence b_sequence a_index b_index final)

/-- `ModifiedPCP.dfs`, with the mutated `self.final_sequence` made an
explicit argument and result.  The extra fuel argument bounds the
recursion depth: every recursive call inserts a fresh element of
`ctx.combination` into `s_taken`, so the depth never exceeds
`ctx.combination.length + 1`, and callers pass at least that much fuel
(the `0` case is unreachable from them). -/
def dfs (ctx : Ctx) : ℕ → Finset ℕ → Str → Str → ℕ → ℕ → Str → Str
  | 0, _, _, _, _, _, final => final
  | fuel + 1, s_taken, a_sequence, b_sequence, a_index, b_index, final =>
      dfsLoop ctx (dfs ctx fuel)
        (sortedOptions (sOptions ctx a_sequence b_sequence a_index b_index))
        s_taken a_sequence b_sequence a_index b_index final

/-- Instrumented companion of `dfsStep` that collects the strings the
step records into `final_sequence` (one on a complete alignment, the
recursion's collection otherwise). -/
def solStep (ctx : Ctx) (rec : Finset ℕ → Str → Str → ℕ → ℕ → List Str) (s : ℕ)
    (s_taken : Finset ℕ) (a_sequence b_sequence : Str) (a_index b_index : ℕ) : List Str :=
  if s ∈ ctx.combination ∧ s ∉ s_taken then
    let a_string := ctx.a_strings.getD s []
    let b_string := ctx.b_strings.getD s []
    let a_sequence_new := a_sequence ++ a_string
    let b_sequence_new := b_sequence ++ b_string
    let a_index_new := a_index + a_string.length
    let b_index_new := b_index + b_string.length
    if pySlice a_sequence_new (min a_index b_index) (min a_index_new b_index_new)
        = pySlice b_sequence_new (min a_index b_index) (min a_index_new b_index_new) then
      if a_index_new = b_index_new then
        [a_sequence_new]
      else
        rec (insert s s_taken) a_sequence_new b_sequence_new a_index_new b_index_new
    else []
  else []

/-- Instrumented companion of `dfsLoop` that collects, in iteration
order, every string the loop records into `final_sequence`. -/
def solLoop (ctx : Ctx)
    (rec : Finset ℕ → Str → Str → ℕ → ℕ → List Str) :
    List ℕ → Finset ℕ → Str → Str → ℕ → ℕ → List Str
  | [], _, _, _, _, _ => []
  | s :: rest, s_taken, a_sequence, b_sequence, a_index, b_index =>
      solStep ctx rec s s_taken a_sequence b_sequence a_index b_index
        ++ solLoop ctx rec rest s_taken a_sequence b_sequence a_index b_index

/-- The strings recorded into `final_sequence` by one call of `dfs`, in
recording order (`dfs` below is proved to fold `minAcc` over them). -/
def dfsSolutions (ctx : Ctx) : ℕ → Finset ℕ → Str → Str → ℕ → ℕ → List Str
  | 0, _, _, _, _, _ => []
  | fuel + 1, s_taken, a_sequence, b_sequence, a_index, b_index =>
      solLoop ctx (dfsSolutions ctx fuel)
        (sortedOptions (sOptions ctx a_sequence b_sequence a_index b_index))
        s_taken a_sequence b_sequence a_index b_index

/-- The `self` context that `solve` sets up before running `dfs` on one
combination: tries over the constructor strings (both rooted at
`range(len(a_strings))`), the beginning set from the prefix filter (which
reads the globals), and the combination. -/
def mkCtx (a_strings b_strings a_lines b_lines : List Str) (combination : List ℕ) : Ctx :=
  { a_strings := a_strings
    b_strings := b_strings
    a_tree := make_tree (Finset.range a_strings.length) a_strings
    b_tree := make_tree (Finset.range a_strings.length) b_strings
    s_options_for_beginning := prefixFilter a_strings.length a_lines b_lines
    combination := combination }

/-- The inner `for combination in combinations` loop of `solve`:
`final_sequence` persists from one combination to the next within a
length group. -/
def runGroup (a_strings b_strings a_lines b_lines : List Str)
    (combinations : List (List ℕ)) (final : Str) : Str :=
  combinations.foldl
    (fun f c =>
      dfs (mkCtx a_strings b_strings a_lines b_lines c) (a_strings.length + 1)
        ∅ [] [] 0 0 f)
    final

/-- The outer loop of `solve` over the length groups in ascending key
order; returns `[]` (Python's falsy `''`) when no group records anything. -/
def solveLoop (a_strings b_strings a_lines b_lines : List Str) :
    List (ℕ × List (List ℕ)) → Str
  | [] => []
  | (_, combinations) :: rest =>
      let final := runGroup a_strings b_strings a_lines b_lines combinations []
      if final ≠ [] then final
      else solveLoop a_strings b_strings a_lines b_lines rest

/-- The sentinel result. -/
def IMPOSSIBLE : Str := ['I', 'M', 'P', 'O', 'S', 'S', 'I', 'B', 'L', 'E']

/-- `ModifiedPCP.solve`, parameterised over the constructor arguments
(`a_strings`/`b_strings`) and the module-level globals
(`a_lines`/`b_lines`) that the prefix and postfix filters read. -/
def solveG (a_strings b_strings a_lines b_lines : List Str) : Str :=
  let s_options_for_beginning := prefixFilter a_strings.length a_lines b_lines
  if s_options_for_beginning = ∅ then IMPOSSIBLE
  else
    let s_options_for_ending := postfixFilter a_strings.length a_lines b_lines
    if s_options_for_ending = ∅ then IMPOSSIBLE
    else
      let byLength := length_balance_filter a_strings b_strings
        s_options_for_beginning s_options_for_ending
      if byLength = [] then IMPOSSIBLE
      else
        let byElements := elements_balance_filter a_strings b_strings byLength
        if byElements = [] then IMPOSSIBLE
        else
          let res := solveLoop a_strings b_strings a_lines b_lines (sortByKey byElements)
          if res = [] then IMPOSSIBLE else res

/-- `solve` as run by the main input loop, where the globals coincide
with the constructor arguments. -/
def solve (a_strings b_strings : List Str) : Str :=
  solveG a_strings b_strings a_strings b_strings

/-- The combinations on which `solve`'s loop invokes `dfs`: every
combination of every group up to and including the first group whose
processing leaves `final_sequence` non-empty. -/
def passedLoop (a_strings b_strings a_lines b_lines : List Str) :
    List (ℕ × List (List ℕ)) → List (List ℕ)
  | [] => []
  | (_, combinations) :: rest =>
      if runGroup a_strings b_strings a_lines b_lines combinations [] ≠ [] then combinations
      else combinations ++ passedLoop a_strings b_strings a_lines b_lines rest

/-- The combinations passed to the Matcher during `solveG` (none when an
early filter already produced IMPOSSIBLE). -/
def passedCombos (a_strings b_strings a_lines b_lines : List Str) : List (List ℕ) :=
  let s_options_for_beginning := prefixFilter a_strings.length a_lines b_lines
  if s_options_for_beginning = ∅ then []
  else
    let s_options_for_ending := postfixFilter a_strings.length a_lines b_lines
    if s_options_for_ending = ∅ then []
    else
      passedLoop a_strings b_strings a_lines b_lines
        (sortByKey (elements_balance_filter a_strings b_strings
          (length_balance_filter a_strings b_strings
            s_options_for_beginning s_options_for_ending)))

/-- A `dfs` call's mutable state: the taken-index set, both accumulated
sequences, and their tracked lengths. -/
structure St where
  s_taken : Finset ℕ
  a_sequence : Str
  b_sequence : Str
  a_index : ℕ
  b_index : ℕ

/-- The state of the initial invocation `self.dfs()` (default arguments). -/
def initSt : St := ⟨∅, [], [], 0, 0⟩

/-- The state passed to the recursive `dfs` call after appending pair `s`. -/
def nextSt (ctx : Ctx) (st : St) (s : ℕ) : St :=
  { s_taken := insert s st.s_taken
    a_sequence := st.a_sequence ++ ctx.a_strings.getD s []
    b_sequence := st.b_sequence ++ ctx.b_strings.getD s []
    a_index := st.a_index + (ctx.a_strings.getD s []).length
    b_index := st.b_index + (ctx.b_strings.getD s []).length }

/-- The overlapping-window check
`a_sequence_new[start:end] == b_sequence_new[start:end]`. -/
def windowOk (ctx : Ctx) (st : St) (s : ℕ) : Prop :=
  pySlice (nextSt ctx st s).a_sequence (min st.a_index st.b_index)
      (min (nextSt ctx st s).a_index (nextSt ctx st s).b_index)
    = pySlice (nextSt ctx st s).b_sequence (min st.a_index st.b_index)
      (min (nextSt ctx st s).a_index (nextSt ctx st s).b_index)

/-- The conditions under which the loop body of `dfs` does not discard
candidate `s` at state `st`: `s` is proposed by the candidate-set
computation, lies in the combination, is not yet taken, and the
overlapping window matches. -/
def stepGuard (ctx : Ctx) (st : St) (s : ℕ) : Prop :=
  s ∈ sOptions ctx st.a_sequence st.b_sequence st.a_index st.b_index
  ∧ s ∈ ctx.combination ∧ s ∉ st.s_taken ∧ windowOk ctx st s

/-- The call tree of `dfs`: `PathFrom ctx st l st'` holds when, starting
a `dfs` call at state `st`, the chain of recursive calls that
successively appends the indices of `l` is executed, reaching a call at
state `st'`.  Each link requires the loop-body guards of the source and
`a_index_new ≠ b_index_new` (on equality `dfs` records the sequence and
`continue`s instead of recursing). -/
inductive PathFrom (ctx : Ctx) : St → List ℕ → St → Prop where
  | nil (st : St) : PathFrom ctx st [] st
  | cons (st : St) (s : ℕ) (l : List ℕ) (st' : St) :
      stepGuard ctx st s →
      (nextSt ctx st s).a_index ≠ (nextSt ctx st s).b_index →
      PathFrom ctx (nextSt ctx st s) l st' →
      PathFrom ctx st (s :: l) st'

/-- The state invariant of claim C7: the tracked indices are the lengths
of the accumulated sequences, and the sequences agree on their common
prefix. -/
def StInv (st : St) : Prop :=
  st.a_index = st.a_sequence.length ∧ st.b_index = st.b_sequence.length
    ∧ st.a_sequence.take (min st.a_index st.b_index)
      = st.b_sequence.take (min st.a_index st.b_index)

lemma stInv_initSt : StInv initSt := by
  refine ⟨rfl, rfl, rfl⟩

lemma stInv_step (ctx : Ctx) (st : St) (s : ℕ) (hinv : StInv st)
    (hw : windowOk ctx st s) : StInv (nextSt ctx st s) := by
  obtain ⟨ha, hb, htake⟩ := hinv
  refine ⟨?_, ?_, ?_⟩
  · show st.a_index + _ = _
    rw [ha]
    simp [nextSt]
  · show st.b_index + _ = _
    rw [hb]
    simp [nextSt]
  · have hm : min st.a_index st.b_index ≤ min (nextSt ctx st s).a_index (nextSt ctx st s).b_index := by
      apply min_le_min <;> exact Nat.le_add_right _ _
    set m := min st.a_index st.b_index with hmdef
    set m' := min (nextSt ctx st s).a_index (nextSt ctx st s).b_index with hm'def
    have hsplit : ∀ l : Str, l.take m' = l.take m ++ (l.drop m).take (m' - m) := by
      intro l
      rw [← List.take_add]
      congr 1
      omega
    rw [hsplit (nextSt ctx st s).a_sequence, hsplit (nextSt ctx st s).b_sequence]
    have hA : (nextSt ctx st s).a_sequence.take m = st.a_sequence.take m := by
      show (st.a_sequence ++ _).take m = _
      exact List.take_append_of_le_length (by rw [← ha]; exact min_le_left _ _)
    have hB : (nextSt ctx st s).b_sequence.take m = st.b_sequence.take m := by
      show (st.b_sequence ++ _).take m = _
      exact List.take_append_of_le_length (by rw [← hb]; exact min_le_right _ _)
    rw [hA, hB, htake]
    exact congrArg (fun z => st.b_sequence.take m ++ z) hw

lemma stInv_pathFrom (ctx : Ctx) (st0 : St) (l : List ℕ) (st : St)
    (h : PathFrom ctx st0 l st) (h0 : StInv st0) : StInv st := by
  induction h with
  | nil => exact h0
  | cons st₁ s l' st' hg hne tail ih =>
      exact ih (stInv_step ctx st₁ s h0 hg.2.2.2)

lemma pathFrom_ne_of_ne_nil (ctx : Ctx) (st0 : St) (l : List ℕ) (st : St)
    (h : PathFrom ctx st0 l st) : l ≠ [] → st.a_index ≠ st.b_index := by
  induction h with
  | nil => intro hne; exact absurd rfl hne
  | cons st₁ s l' st' hg hne tail ih =>
      intro _
      cases l' with
      | nil =>
          cases tail
          exact hne
      | cons a as => exact ih (by simp)

/-- C7: at every DFS state reachable from the Matcher's initial
invocation, `a_index` and `b_index` equal the lengths of `a_sequence`
and `b_sequence`, and the two sequences agree character-for-character up
to `min(a_index, b_index)` — the incremental window check of each
extension preserves this invariant (lemma `stInv_step`). -/
theorem dfs_reachable_state_invariant (ctx : Ctx) (l : List ℕ) (st : St)
    (h : PathFrom ctx initSt l st) :
    st.a_index = st.a_sequence.length ∧ st.b_index = st.b_sequence.length
    ∧ st.a_sequence.take (min st.a_index st.b_index)
      = st.b_sequence.take (min st.a_index st.b_index) :=
  stInv_pathFrom ctx initSt l st h stInv_initSt

/-- C8: the candidate set is the beginning-candidate set exactly when
`a_index = b_index`; that holds at the initial invocation, and at no
other reachable call, because an extension reaching equal indices
records a candidate solution and `continue`s instead of recursing. -/
theorem dfs_beginning_set_only_at_start (ctx : Ctx) :
    (initSt.a_index = initSt.b_index
      ∧ sOptions ctx initSt.a_sequence initSt.b_sequence initSt.a_index initSt.b_index
        = ctx.s_options_for_beginning)
    ∧ ∀ (l : List ℕ) (st : St), PathFrom ctx initSt l st → l ≠ [] →
        (st.a_index ≠ st.b_index
          ∧ sOptions ctx st.a_sequence st.b_sequence st.a_index st.b_index
            = (if st.a_index < st.b_index
               then search_in_tree ctx.a_tree (st.b_sequence.drop st.a_index)
               else search_in_tree ctx.b_tree (st.a_sequence.drop st.b_index))) := by
  refine ⟨⟨rfl, by simp [sOptions, initSt]⟩, ?_⟩
  intro l st h hne
  have hlt := pathFrom_ne_of_ne_nil ctx initSt l st h hne
  refine ⟨hlt, ?_⟩
  rw [sOptions]
  rcases Nat.lt_or_ge st.a_index st.b_index with hab | hab
  · rw [if_pos hab, if_pos hab]
  · have hnab : ¬ st.a_index < st.b_index := by omega
    have hba : st.b_index < st.a_index := by omega
    rw [if_neg hnab, if_neg hnab, if_pos hba]

/-- A small concrete instance (the single pair `("a", "ab")`) used to
instantiate theorems with hypotheses. -/
def exCtx : Ctx := mkCtx [['a']] [['a', 'b']] [['a']] [['a', 'b']] [0]

lemma exGuard : stepGuard exCtx initSt 0 := by
  unfold stepGuard windowOk
  exact ⟨by decide, by decide, by decide, by decide⟩

lemma exPath : PathFrom exCtx initSt [0] (nextSt exCtx initSt 0) :=
  PathFrom.cons initSt 0 [] _ exGuard (by decide) (PathFrom.nil _)

/-- Witness for C7 on the concrete path appending pair 0 of `exCtx`. -/
theorem dfs_reachable_state_invariant_witness :
    (nextSt exCtx initSt 0).a_index = (nextSt exCtx initSt 0).a_sequence.length
    ∧ (nextSt exCtx initSt 0).b_index = (nextSt exCtx initSt 0).b_sequence.length
    ∧ (nextSt exCtx initSt 0).a_sequence.take
        (min (nextSt exCtx initSt 0).a_index (nextSt exCtx initSt 0).b_index)
      = (nextSt exCtx initSt 0).b_sequence.take
        (min (nextSt exCtx initSt 0).a_index (nextSt exCtx initSt 0).b_index) :=
  dfs_reachable_state_invariant exCtx [0] _ exPath

/-- Witness for C8 on the same concrete path. -/
theorem dfs_beginning_set_only_at_start_witness :
    ((initSt.a_index = initSt.b_index
      ∧ sOptions exCtx initSt.a_sequence initSt.b_sequence initSt.a_index initSt.b_index
        = exCtx.s_options_for_beginning))
    ∧ ((nextSt exCtx initSt 0).a_index ≠ (nextSt exCtx initSt 0).b_index
        ∧ sOptions exCtx (nextSt exCtx initSt 0).a_sequence (nextSt exCtx initSt 0).b_sequence
            (nextSt exCtx initSt 0).a_index (nextSt exCtx initSt 0).b_index
          = (if (nextSt exCtx initSt 0).a_index < (nextSt exCtx initSt 0).b_index
             then search_in_tree exCtx.a_tree
               ((nextSt exCtx initSt 0).b_sequence.drop (nextSt exCtx initSt 0).a_index)
             else search_in_tree exCtx.b_tree
               ((nextSt exCtx initSt 0).a_sequence.drop (nextSt exCtx initSt 0).b_index))) :=
  ⟨(dfs_beginning_set_only_at_start exCtx).1,
   (dfs_beginning_set_only_at_start exCtx).2 [0] _ exPath (by simp)⟩

/-- Concrete strings (`["ab", "a"]`) used to instantiate the trie
theorems. -/
def exStrings : List Str := [['a', 'b'], ['a']]

/-- Witness for C3 at the query `"abc"` over `exStrings`. -/
theorem search_in_tree_spec_witness :
    search_in_tree (make_tree (Finset.range exStrings.length) exStrings) ['a', 'b', 'c']
      = (Finset.range exStrings.length).filter
          (fun i => exStrings.getD i [] <+: ['a', 'b', 'c']
            ∨ (['a', 'b', 'c'] <+: exStrings.getD i [] ∧ ['a', 'b', 'c'] ≠ exStrings.getD i [])) :=
  search_in_tree_spec exStrings (by decide) ['a', 'b', 'c']

/-- Witness for C9 over `exStrings`, sampling the root node and index 0. -/
theorem make_tree_nodes_spec_witness :
    (make_tree (Finset.range exStrings.length) exStrings).part = Finset.range exStrings.length
    ∧ (make_tree (Finset.range exStrings.length) exStrings).endS = ∅
    ∧ Disjoint (make_tree (Finset.range exStrings.length) exStrings).endS
        (make_tree (Finset.range exStrings.length) exStrings).part
    ∧ (0 ∈ (make_tree (Finset.range exStrings.length) exStrings).endS
        ↔ (0, ([] : Str)) ∈ exStrings.enum) :=
  ⟨(make_tree_nodes_spec exStrings (by decide)).1,
   (make_tree_nodes_spec exStrings (by decide)).2.1,
   ((make_tree_nodes_spec exStrings (by decide)).2.2 [] _ rfl).1,
   ((make_tree_nodes_spec exStrings (by decide)).2.2 [] _ rfl).2 0⟩

lemma dfs_succ (ctx : Ctx) (f : ℕ) (tk : Finset ℕ) (a b : Str) (ai bi : ℕ) (final : Str) :
    dfs ctx (f + 1) tk a b ai bi final
      = dfsLoop ctx (dfs ctx f) (sortedOptions (sOptions ctx a b ai bi)) tk a b ai bi final := rfl

lemma dfsSolutions_succ (ctx : Ctx) (f : ℕ) (tk : Finset ℕ) (a b : Str) (ai bi : ℕ) :
    dfsSolutions ctx (f + 1) tk a b ai bi
      = solLoop ctx (dfsSolutions ctx f) (sortedOptions (sOptions ctx a b ai bi)) tk a b ai bi := rfl

lemma dfsLoop_cons (ctx : Ctx) (rec : Finset ℕ → Str → Str → ℕ → ℕ → Str → Str)
    (s : ℕ) (rest : List ℕ) (tk : Finset ℕ) (a b : Str) (ai bi : ℕ) (final : Str) :
    dfsLoop ctx rec (s :: rest) tk a b ai bi final
      = dfsLoop ctx rec rest tk a b ai bi (dfsStep ctx rec s tk a b ai bi final) := rfl

lemma solLoop_cons (ctx : Ctx) (rec : Finset ℕ → Str → Str → ℕ → ℕ → List Str)
    (s : ℕ) (rest : List ℕ) (tk : Finset ℕ) (a b : Str) (ai bi : ℕ) :
    solLoop ctx rec (s :: rest) tk a b ai bi
      = solStep ctx rec s tk a b ai bi ++ solLoop ctx rec rest tk a b ai bi := rfl

lemma dfs_eq_foldl_solutions (ctx : Ctx) :
    ∀ (fuel : ℕ) (tk : Finset ℕ) (a b : Str) (ai bi : ℕ) (final : Str),
      dfs ctx fuel tk a b ai bi final
        = (dfsSolutions ctx fuel tk a b ai bi).foldl minAcc final := by
  intro fuel
  induction fuel with
  | zero => intros; rfl
  | succ f ih =>
      intro tk a b ai bi final
      rw [dfs_succ, dfsSolutions_succ]
      have hstep : ∀ (s : ℕ) (tk : Finset ℕ) (a b : Str) (ai bi : ℕ) (final : Str),
          dfsStep ctx (dfs ctx f) s tk a b ai bi final
            = (solStep ctx (dfsSolutions ctx f) s tk a b ai bi).foldl minAcc final := by
        intro s tk a b ai bi final
        unfold dfsStep solStep
        dsimp only
        split_ifs with h1 h2 h3
        · rfl
        · exact ih _ _ _ _ _ _
        · rfl
        · rfl
      generalize sortedOptions (sOptions ctx a b ai bi) = opts
      induction opts generalizing tk a b ai bi final with
      | nil => rfl
      | cons s rest ihopts =>
          rw [dfsLoop_cons, solLoop_cons, List.foldl_append, ihopts, hstep]

/-- The conclusion of the soundness lemmas: `S` is recorded at the end of
some valid chain of recursive calls followed by one closing loop
iteration with equal new indices. -/
def RecordedVia (ctx : Ctx) (st : St) (S : Str) : Prop :=
  ∃ (l : List ℕ) (st' : St) (s : ℕ),
    PathFrom ctx st l st' ∧ stepGuard ctx st' s
    ∧ (nextSt ctx st' s).a_index = (nextSt ctx st' s).b_index
    ∧ S = (nextSt ctx st' s).a_sequence

lemma solLoop_sound (ctx : Ctx) (f : ℕ)
    (ih : ∀ (st : St) (S : Str),
      S ∈ dfsSolutions ctx f st.s_taken st.a_sequence st.b_sequence st.a_index st.b_index →
      RecordedVia ctx st S) :
    ∀ (opts : List ℕ) (st : St) (S : Str),
      (∀ x ∈ opts, x ∈ sOptions ctx st.a_sequence st.b_sequence st.a_index st.b_index) →
      S ∈ solLoop ctx (dfsSolutions ctx f) opts st.s_taken st.a_sequence st.b_sequence
        st.a_index st.b_index →
      RecordedVia ctx st S := by
  intro opts
  induction opts with
  | nil =>
      intro st S _ hS
      exact absurd hS (List.not_mem_nil S)
  | cons s rest ihopts =>
      intro st S hopts hS
      rw [solLoop_cons] at hS
      rcases List.mem_append.mp hS with hS | hS
      · unfold solStep at hS
        dsimp only at hS
        split at hS
        · split at hS
          · split at hS
            · next h1 h2 h3 =>
                have hS' : S = st.a_sequence ++ ctx.a_strings.getD s [] := by
                  simpa using hS
                exact ⟨[], st, s, PathFrom.nil st,
                  ⟨hopts s (by simp), h1.1, h1.2, h2⟩, h3, hS'⟩
            · next h1 h2 h3 =>
                rcases ih (nextSt ctx st s) S hS with ⟨l, st', s', hp, hg, hc, hSeq⟩
                exact ⟨s :: l, st', s',
                  PathFrom.cons st s l st' ⟨hopts s (by simp), h1.1, h1.2, h2⟩ h3 hp,
                  hg, hc, hSeq⟩
          · exact absurd hS (List.not_mem_nil S)
        · exact absurd hS (List.not_mem_nil S)
      · exact ihopts st S (fun x hx => hopts x (List.mem_cons_of_mem _ hx)) hS

lemma dfsSolutions_sound (ctx : Ctx) :
    ∀ (fuel : ℕ) (st : St) (S : Str),
      S ∈ dfsSolutions ctx fuel st.s_taken st.a_sequence st.b_sequence st.a_index st.b_index →
      RecordedVia ctx st S := by
  intro fuel
  induction fuel with
  | zero =>
      intro st S hS
      exact absurd hS (List.not_mem_nil S)
  | succ f ih =>
      intro st S hS
      rw [dfsSolutions_succ] at hS
      exact solLoop_sound ctx f ih _ st S
        (fun x hx => (mem_sortedOptions _ x).mp hx) hS

lemma mem_solLoop_of_step (ctx : Ctx) (rec : Finset ℕ → Str → Str → ℕ → ℕ → List Str) :
    ∀ (opts : List ℕ) (s : ℕ) (tk : Finset ℕ) (a b : Str) (ai bi : ℕ) (S : Str),
      s ∈ opts → S ∈ solStep ctx rec s tk a b ai bi →
      S ∈ solLoop ctx rec opts tk a b ai bi := by
  intro opts
  induction opts with
  | nil =>
      intro s tk a b ai bi S hs _
      exact absurd hs (List.not_mem_nil s)
  | cons s' rest ihopts =>
      intro s tk a b ai bi S hs hS
      rw [solLoop_cons]
      rcases List.mem_cons.mp hs with hs | hs
      · subst hs
        exact List.mem_append_left _ hS
      · exact List.mem_append_right _ (ihopts s tk a b ai bi S hs hS)

lemma mem_solStep_close (ctx : Ctx) (rec : Finset ℕ → Str → Str → ℕ → ℕ → List Str)
    (st : St) (s : ℕ) (hg : stepGuard ctx st s)
    (hclose : (nextSt ctx st s).a_index = (nextSt ctx st s).b_index) :
    (nextSt ctx st s).a_sequence
      ∈ solStep ctx rec s st.s_taken st.a_sequence st.b_sequence st.a_index st.b_index := by
  unfold solStep
  rw [if_pos ⟨hg.2.1, hg.2.2.1⟩]
  dsimp only
  split
  · split
    · exact List.mem_singleton.mpr rfl
    · next h3 => exact absurd hclose h3
  · next h2 => exact absurd hg.2.2.2 h2

lemma solStep_recurse (ctx : Ctx) (rec : Finset ℕ → Str → Str → ℕ → ℕ → List Str)
    (st : St) (s : ℕ) (hg : stepGuard ctx st s)
    (hne : (nextSt ctx st s).a_index ≠ (nextSt ctx st s).b_index) :
    solStep ctx rec s st.s_taken st.a_sequence st.b_sequence st.a_index st.b_index
      = rec (nextSt ctx st s).s_taken (nextSt ctx st s).a_sequence
          (nextSt ctx st s).b_sequence (nextSt ctx st s).a_index (nextSt ctx st s).b_index := by
  unfold solStep
  rw [if_pos ⟨hg.2.1, hg.2.2.1⟩]
  dsimp only
  split
  · split
    · next h3 => exact absurd h3 hne
    · rfl
  · next h2 => exact absurd hg.2.2.2 h2

lemma dfsSolutions_complete (ctx : Ctx) (l : List ℕ) (st st' : St)
    (h : PathFrom ctx st l st') :
    ∀ (s : ℕ) (fuel : ℕ), stepGuard ctx st' s →
      (nextSt ctx st' s).a_index = (nextSt ctx st' s).b_index →
      l.length < fuel →
      (nextSt ctx st' s).a_sequence
        ∈ dfsSolutions ctx fuel st.s_taken st.a_sequence st.b_sequence st.a_index st.b_index := by
  induction h with
  | nil st =>
      intro s fuel hg hclose hfuel
      obtain ⟨f, rfl⟩ : ∃ f, fuel = f + 1 := ⟨fuel - 1, by omega⟩
      rw [dfsSolutions_succ]
      exact mem_solLoop_of_step ctx _ _ s _ _ _ _ _ _
        ((mem_sortedOptions _ s).mpr hg.1)
        (mem_solStep_close ctx _ st s hg hclose)
  | cons st₁ s₀ l' st'' hg₀ hne₀ tail ih =>
      intro s fuel hg hclose hfuel
      obtain ⟨f, rfl⟩ : ∃ f, fuel = f + 1 := ⟨fuel - 1, by omega⟩
      rw [dfsSolutions_succ]
      apply mem_solLoop_of_step ctx _ _ s₀ _ _ _ _ _ _
        ((mem_sortedOptions _ s₀).mpr hg₀.1)
      rw [solStep_recurse ctx _ st₁ s₀ hg₀ hne₀]
      exact ih s f hg hclose (by simpa using Nat.lt_of_succ_lt_succ hfuel)

lemma mem_combos : ∀ (xs : List ℕ) (k : ℕ) (c : List ℕ),
    c ∈ combos xs k ↔ (c.length = k ∧ List.Sublist c xs) := by
  intro xs
  induction xs with
  | nil =>
      intro k c
      cases k with
      | zero =>
          simp only [combos, List.mem_singleton]
          constructor
          · rintro rfl
            exact ⟨rfl, List.Sublist.refl []⟩
          · rintro ⟨hl, hs⟩
            exact List.length_eq_zero.mp hl
      | succ k' =>
          simp only [combos, List.not_mem_nil, false_iff, not_and]
          intro hl hs
          rw [List.sublist_nil.mp hs] at hl
          simp at hl
  | cons x xs ih =>
      intro k c
      cases k with
      | zero =>
          simp only [combos, List.mem_singleton]
          constructor
          · rintro rfl
            exact ⟨rfl, List.nil_sublist _⟩
          · rintro ⟨hl, _⟩
            exact List.length_eq_zero.mp hl
      | succ k' =>
          rw [combos, List.mem_append, List.mem_map]
          constructor
          · rintro (⟨c', hc', rfl⟩ | hc)
            · rcases (ih k' c').mp hc' with ⟨hl, hs⟩
              exact ⟨by simp [hl], List.Sublist.cons₂ x hs⟩
            · rcases (ih (k' + 1) c).mp hc with ⟨hl, hs⟩
              exact ⟨hl, List.sublist_cons_of_sublist x hs⟩
          · rintro ⟨hl, hs⟩
            cases hs with
            | cons _ hs' =>
                exact Or.inr ((ih (k' + 1) c).mpr ⟨hl, hs'⟩)
            | cons₂ _ hs' =>
                rename_i c'
                exact Or.inl ⟨c', (ih k' c').mpr ⟨by simpa using hl, hs'⟩, rfl⟩

lemma mem_allCombos (n : ℕ) (c : List ℕ) :
    c ∈ allCombos n ↔ (c ≠ [] ∧ List.Sublist c (List.range n)) := by
  rw [allCombos, List.mem_bind]
  constructor
  · rintro ⟨k, hk, hc⟩
    rcases (mem_combos _ _ _).mp hc with ⟨hl, hs⟩
    refine ⟨?_, hs⟩
    intro hnil
    rw [hnil] at hl
    simp at hl
  · rintro ⟨hne, hs⟩
    have hlen : 1 ≤ c.length := by
      cases c with
      | nil => exact absurd rfl hne
      | cons a as => simp
    have hle : c.length ≤ n := by
      have := hs.length_le
      simpa using this
    refine ⟨c.length - 1, ?_, (mem_combos _ _ _).mpr ⟨by omega, hs⟩⟩
    rw [List.mem_range]
    omega

/-- Lookup in the insertion-ordered dict (`d[k]`, `[]` when absent). -/
def lookupD : List (ℕ × List (List ℕ)) → ℕ → List (List ℕ)
  | [], _ => []
  | (k', cs) :: rest, k => if k' = k then cs else lookupD rest k

lemma lookupD_dictAppend (d : List (ℕ × List (List ℕ))) (k : ℕ) (c : List ℕ) (k' : ℕ) :
    lookupD (dictAppend d k c) k'
      = if k = k' then lookupD d k' ++ [c] else lookupD d k' := by
  induction d with
  | nil =>
      by_cases h : k = k' <;> simp [dictAppend, lookupD, h]
  | cons e rest ih =>
      obtain ⟨k₀, cs₀⟩ := e
      by_cases h₀ : k₀ = k
      · subst h₀
        by_cases h₁ : k₀ = k' <;> simp [dictAppend, lookupD, h₁]
      · rw [dictAppend, if_neg h₀]
        by_cases h₁ : k₀ = k'
        · subst h₁
          have : ¬ k = k₀ := fun h => h₀ h.symm
          simp [lookupD, this]
        · simp [lookupD, h₁, ih]

lemma keys_dictAppend (d : List (ℕ × List (List ℕ))) (k : ℕ) (c : List ℕ) :
    (dictAppend d k c).map Prod.fst
      = if k ∈ d.map Prod.fst then d.map Prod.fst else d.map Prod.fst ++ [k] := by
  induction d with
  | nil => simp [dictAppend]
  | cons e rest ih =>
      obtain ⟨k₀, cs₀⟩ := e
      by_cases h₀ : k₀ = k
      · subst h₀
        simp [dictAppend]
      · rw [dictAppend, if_neg h₀]
        by_cases hk : k ∈ rest.map Prod.fst
        · simp [lookupD, hk, ih, Ne.symm h₀]
        · simp [lookupD, hk, ih, Ne.symm h₀]

lemma values_dictAppend (d : List (ℕ × List (List ℕ))) (k : ℕ) (c : List ℕ)
    (hd : ∀ e ∈ d, e.2 ≠ []) :
    ∀ e ∈ dictAppend d k c, e.2 ≠ [] := by
  induction d with
  | nil =>
      intro e he
      simp [dictAppend] at he
      subst he
      simp
  | cons e₀ rest ih =>
      obtain ⟨k₀, cs₀⟩ := e₀
      intro e he
      by_cases h₀ : k₀ = k
      · subst h₀
        rw [dictAppend, if_pos rfl] at he
        rcases List.mem_cons.mp he with he | he
        · subst he
          simp
        · exact hd e (List.mem_cons_of_mem _ he)
      · rw [dictAppend, if_neg h₀] at he
        rcases List.mem_cons.mp he with he | he
        · subst he
          exact hd (k₀, cs₀) (by simp)
        · exact ih (fun e' he' => hd e' (List.mem_cons_of_mem _ he')) e he

lemma keys_nodup_dictAppend (d : List (ℕ × List (List ℕ))) (k : ℕ) (c : List ℕ)
    (hd : (d.map Prod.fst).Nodup) : ((dictAppend d k c).map Prod.fst).Nodup := by
  rw [keys_dictAppend]
  by_cases hk : k ∈ d.map Prod.fst
  · rwa [if_pos hk]
  · rw [if_neg hk]
    simp [List.nodup_append, hd, hk]

lemma lookupD_eq_nil_of_not_mem_keys (d : List (ℕ × List (List ℕ))) (k : ℕ)
    (hk : k ∉ d.map Prod.fst) : lookupD d k = [] := by
  induction d with
  | nil => rfl
  | cons e rest ih =>
      obtain ⟨k₀, cs₀⟩ := e
      simp only [List.map_cons, List.mem_cons] at hk
      push_neg at hk
      rw [lookupD, if_neg (fun h => hk.1 h.symm)]
      exact ih hk.2

lemma mem_dict_iff_lookupD (d : List (ℕ × List (List ℕ)))
    (hd : (d.map Prod.fst).Nodup) (k : ℕ) (cs : List (List ℕ)) :
    (k, cs) ∈ d ↔ (k ∈ d.map Prod.fst ∧ lookupD d k = cs) := by
  induction d with
  | nil => simp
  | cons e rest ih =>
      obtain ⟨k₀, cs₀⟩ := e
      simp only [List.map_cons, List.nodup_cons] at hd
      constructor
      · intro h
        rcases List.mem_cons.mp h with h | h
        · rw [← h]
          simp [lookupD]
        · have hk : k ∈ rest.map Prod.fst := by
            exact List.mem_map.mpr ⟨(k, cs), h, rfl⟩
          have hne : k₀ ≠ k := fun he => hd.1 (he ▸ hk)
          refine ⟨by simp [hk], ?_⟩
          rw [lookupD, if_neg hne]
          exact ((ih hd.2).mp h).2
      · rintro ⟨hk, hcs⟩
        rcases List.mem_cons.mp hk with hk | hk
        · subst hk
          rw [lookupD, if_pos rfl] at hcs
          subst hcs
          exact List.mem_cons_self _ _
        · have hne : k₀ ≠ k := fun he => hd.1 (he ▸ hk)
          rw [lookupD, if_neg hne] at hcs
          exact List.mem_cons_of_mem _ ((ih hd.2).mpr ⟨hk, hcs⟩)

lemma mem_keys_iff_lookupD_ne (d : List (ℕ × List (List ℕ)))
    (hval : ∀ e ∈ d, e.2 ≠ []) (k : ℕ) :
    k ∈ d.map Prod.fst ↔ lookupD d k ≠ [] := by
  constructor
  · intro hk
    induction d with
    | nil => simp at hk
    | cons e rest ih =>
        obtain ⟨k₀, cs₀⟩ := e
        by_cases h₀ : k₀ = k
        · subst h₀
          rw [lookupD, if_pos rfl]
          exact hval (k₀, cs₀) (by simp)
        · rw [lookupD, if_neg h₀]
          have : k ∈ rest.map Prod.fst := by
            simp only [List.map_cons, List.mem_cons] at hk
            rcases hk with hk | hk
            · exact absurd hk.symm h₀
            · exact hk
          exact ih (fun e' he' => hval e' (List.mem_cons_of_mem _ he')) this
  · intro h
    by_contra hk
    exact h (lookupD_eq_nil_of_not_mem_keys d k hk)

lemma lookupD_foldl (cond : List ℕ → Prop) [DecidablePred cond] (key : List ℕ → ℕ) :
    ∀ (l : List (List ℕ)) (d : List (ℕ × List (List ℕ))) (L : ℕ),
      lookupD (l.foldl (fun d' c => if cond c then dictAppend d' (key c) c else d') d) L
        = lookupD d L ++ l.filter (fun c => decide (cond c) && decide (key c = L)) := by
  intro l
  induction l with
  | nil => intro d L; simp
  | cons c rest ih =>
      intro d L
      rw [List.foldl_cons, ih]
      by_cases hc : cond c
      · rw [if_pos hc, lookupD_dictAppend]
        by_cases hk : key c = L
        · rw [if_pos hk, List.filter_cons, List.append_assoc]
          simp [hc, hk]
        · rw [if_neg hk, List.filter_cons]
          simp [hc, hk]
      · rw [if_neg hc, List.filter_cons]
        simp [hc]

lemma keys_nodup_foldl (cond : List ℕ → Prop) [DecidablePred cond] (key : List ℕ → ℕ) :
    ∀ (l : List (List ℕ)) (d : List (ℕ × List (List ℕ))),
      (d.map Prod.fst).Nodup →
      (((l.foldl (fun d' c => if cond c then dictAppend d' (key c) c else d') d).map
        Prod.fst)).Nodup := by
  intro l
  induction l with
  | nil => intro d hd; exact hd
  | cons c rest ih =>
      intro d hd
      rw [List.foldl_cons]
      by_cases hc : cond c
      · rw [if_pos hc]
        exact ih _ (keys_nodup_dictAppend d (key c) c hd)
      · rw [if_neg hc]
        exact ih _ hd

lemma values_ne_nil_foldl (cond : List ℕ → Prop) [DecidablePred cond] (key : List ℕ → ℕ) :
    ∀ (l : List (List ℕ)) (d : List (ℕ × List (List ℕ))),
      (∀ e ∈ d, e.2 ≠ []) →
      ∀ e ∈ l.foldl (fun d' c => if cond c then dictAppend d' (key c) c else d') d, e.2 ≠ [] := by
  intro l
  induction l with
  | nil => intro d hd; exact hd
  | cons c rest ih =>
      intro d hd
      rw [List.foldl_cons]
      by_cases hc : cond c
      · rw [if_pos hc]
        exact ih _ (values_dictAppend d (key c) c hd)
      · rw [if_neg hc]
        exact ih _ hd

/-- The condition under which `length_balance_filter` keeps a combination. -/
def lbCond (a_strings b_strings : List Str) (sb se : Finset ℕ) (c : List ℕ) : Prop :=
  sumLen a_strings c = sumLen b_strings c ∧ intersects c sb ∧ intersects c se

/-- The condition under which `elements_balance_filter` keeps a combination. -/
def ebCond (a_strings b_strings : List Str) (c : List ℕ) : Prop :=
  (joinStrs a_strings c : Multiset Char) = (joinStrs b_strings c : Multiset Char)

instance (A B : List Str) (sb se : Finset ℕ) (c : List ℕ) :
    Decidable (lbCond A B sb se c) := by
  unfold lbCond
  infer_instance

instance (A B : List Str) (c : List ℕ) : Decidable (ebCond A B c) := by
  unfold ebCond
  infer_instance

lemma lookupD_length_balance_filter (A B : List Str) (sb se : Finset ℕ) (L : ℕ) :
    lookupD (length_balance_filter A B sb se) L
      = (allCombos A.length).filter
          (fun c => decide (lbCond A B sb se c) && decide (sumLen A c = L)) := by
  have := lookupD_foldl (lbCond A B sb se) (fun c => sumLen A c) (allCombos A.length) [] L
  simpa [length_balance_filter, lbCond] using this

lemma keys_nodup_length_balance_filter (A B : List Str) (sb se : Finset ℕ) :
    ((length_balance_filter A B sb se).map Prod.fst).Nodup := by
  have := keys_nodup_foldl (lbCond A B sb se) (fun c => sumLen A c) (allCombos A.length) []
    (by simp)
  simpa [length_balance_filter, lbCond] using this

lemma values_ne_nil_length_balance_filter (A B : List Str) (sb se : Finset ℕ) :
    ∀ e ∈ length_balance_filter A B sb se, e.2 ≠ [] := by
  have := values_ne_nil_foldl (lbCond A B sb se) (fun c => sumLen A c) (allCombos A.length) []
    (by simp)
  simpa [length_balance_filter, lbCond] using this

lemma lookupD_inner_fold (mc : List ℕ → Prop) [DecidablePred mc] (k : ℕ)
    (l : List (List ℕ)) (acc : List (ℕ × List (List ℕ))) (L : ℕ) :
    lookupD (l.foldl (fun acc' c => if mc c then dictAppend acc' k c else acc') acc) L
      = lookupD acc L ++ (if k = L then l.filter (fun c => decide (mc c)) else []) := by
  have := lookupD_foldl mc (fun _ => k) l acc L
  rw [this]
  by_cases hk : k = L
  · subst hk
    simp
  · simp [hk]

lemma lookupD_ebf_fold (mc : List ℕ → Prop) [DecidablePred mc] :
    ∀ (d : List (ℕ × List (List ℕ))) (acc : List (ℕ × List (List ℕ))) (L : ℕ),
      lookupD (d.foldl (fun acc' kv =>
          kv.2.foldl (fun acc'' c => if mc c then dictAppend acc'' kv.1 c else acc'') acc') acc) L
        = lookupD acc L
          ++ (d.map (fun kv => if kv.1 = L then kv.2.filter (fun c => decide (mc c)) else [])).join := by
  intro d
  induction d with
  | nil => intro acc L; simp
  | cons kv rest ih =>
      intro acc L
      rw [List.foldl_cons, ih, lookupD_inner_fold, List.map_cons]
      simp [List.append_assoc]

lemma join_map_ne (L : ℕ) (f : List (List ℕ) → List (List ℕ)) :
    ∀ (d : List (ℕ × List (List ℕ))), (∀ kv ∈ d, kv.1 ≠ L) →
      (d.map (fun kv => if kv.1 = L then f kv.2 else [])).join = [] := by
  intro d
  induction d with
  | nil => simp
  | cons kv rest ih =>
      intro h
      rw [List.map_cons]
      rw [if_neg (h kv (by simp))]
      simpa using ih (fun kv' hkv' => h kv' (List.mem_cons_of_mem _ hkv'))

lemma join_map_single (L : ℕ) (f : List (List ℕ) → List (List ℕ)) (hf : f [] = []) :
    ∀ (d : List (ℕ × List (List ℕ))), ((d.map Prod.fst).Nodup) →
      (d.map (fun kv => if kv.1 = L then f kv.2 else [])).join = f (lookupD d L) := by
  intro d
  induction d with
  | nil => simpa using hf.symm
  | cons kv rest ih =>
      intro hd
      obtain ⟨k₀, cs₀⟩ := kv
      simp only [List.map_cons, List.nodup_cons] at hd
      by_cases hk : k₀ = L
      · subst hk
        rw [List.map_cons]
        simp only [if_pos rfl]
        have hrest : ∀ kv' ∈ rest, kv'.1 ≠ k₀ := by
          intro kv' hkv' he
          exact hd.1 (he ▸ List.mem_map.mpr ⟨kv', hkv', rfl⟩)
        have hjoin := join_map_ne k₀ f rest hrest
        simp [lookupD, hjoin]
      · rw [List.map_cons]
        simp only [if_neg hk]
        rw [lookupD, if_neg hk]
        simpa using ih hd.2

lemma lookupD_elements_balance_filter (A B : List Str) (d : List (ℕ × List (List ℕ)))
    (hkeys : (d.map Prod.fst).Nodup) (L : ℕ) :
    lookupD (elements_balance_filter A B d) L
      = (lookupD d L).filter (fun c => decide (ebCond A B c)) := by
  have h1 := lookupD_ebf_fold (ebCond A B) d [] L
  have h2 := join_map_single L (fun cs => cs.filter (fun c => decide (ebCond A B c)))
    (by simp) d hkeys
  rw [show elements_balance_filter A B d
      = d.foldl (fun acc' kv =>
          kv.2.foldl (fun acc'' c => if ebCond A B c then dictAppend acc'' kv.1 c else acc'') acc') []
    from rfl, h1, h2]
  rfl

lemma keys_nodup_elements_balance_filter (A B : List Str) (d : List (ℕ × List (List ℕ))) :
    ((elements_balance_filter A B d).map Prod.fst).Nodup := by
  rw [show elements_balance_filter A B d
      = d.foldl (fun acc' kv =>
          kv.2.foldl (fun acc'' c => if ebCond A B c then dictAppend acc'' kv.1 c else acc'') acc') []
    from rfl]
  have : ∀ (d' : List (ℕ × List (List ℕ))) (acc : List (ℕ × List (List ℕ))),
      ((acc.map Prod.fst).Nodup) →
      (((d'.foldl (fun acc' kv =>
          kv.2.foldl (fun acc'' c => if ebCond A B c then dictAppend acc'' kv.1 c else acc'') acc') acc).map
        Prod.fst)).Nodup := by
    intro d'
    induction d' with
    | nil => intro acc h; exact h
    | cons kv rest ih =>
        intro acc h
        rw [List.foldl_cons]
        exact ih _ (keys_nodup_foldl (ebCond A B) (fun _ => kv.1) kv.2 acc h)
  exact this d [] (by simp)

lemma values_ne_nil_elements_balance_filter (A B : List Str) (d : List (ℕ × List (List ℕ))) :
    ∀ e ∈ elements_balance_filter A B d, e.2 ≠ [] := by
  rw [show elements_balance_filter A B d
      = d.foldl (fun acc' kv =>
          kv.2.foldl (fun acc'' c => if ebCond A B c then dictAppend acc'' kv.1 c else acc'') acc') []
    from rfl]
  have : ∀ (d' : List (ℕ × List (List ℕ))) (acc : List (ℕ × List (List ℕ))),
      (∀ e ∈ acc, e.2 ≠ []) →
      ∀ e ∈ d'.foldl (fun acc' kv =>
          kv.2.foldl (fun acc'' c => if ebCond A B c then dictAppend acc'' kv.1 c else acc'') acc') acc,
        e.2 ≠ [] := by
    intro d'
    induction d' with
    | nil => intro acc h; exact h
    | cons kv rest ih =>
        intro acc h
        rw [List.foldl_cons]
        exact ih _ (values_ne_nil_foldl (ebCond A B) (fun _ => kv.1) kv.2 acc h)
  exact this d [] (by simp)

lemma insertSorted_perm (kv : ℕ × List (List ℕ)) :
    ∀ (l : List (ℕ × List (List ℕ))), (insertSorted kv l).Perm (kv :: l) := by
  intro l
  induction l with
  | nil => simp [insertSorted]
  | cons kv' rest ih =>
      rw [insertSorted]
      by_cases h : kv.1 ≤ kv'.1
      · rw [if_pos h]
      · rw [if_neg h]
        exact (List.Perm.cons kv' ih).trans (List.Perm.swap kv kv' rest)

lemma sortByKey_perm : ∀ (d : List (ℕ × List (List ℕ))), (sortByKey d).Perm d := by
  intro d
  induction d with
  | nil => simp [sortByKey]
  | cons kv rest ih =>
      rw [sortByKey]
      exact (insertSorted_perm kv (sortByKey rest)).trans (List.Perm.cons kv ih)

lemma insertSorted_sorted (kv : ℕ × List (List ℕ)) :
    ∀ (l : List (ℕ × List (List ℕ))),
      List.Sorted (fun a b : ℕ × List (List ℕ) => a.1 ≤ b.1) l →
      List.Sorted (fun a b : ℕ × List (List ℕ) => a.1 ≤ b.1) (insertSorted kv l) := by
  intro l
  induction l with
  | nil => intro _; simp [insertSorted]
  | cons kv' rest ih =>
      intro hs
      rw [List.sorted_cons] at hs
      rw [insertSorted]
      by_cases h : kv.1 ≤ kv'.1
      · rw [if_pos h]
        rw [List.sorted_cons]
        refine ⟨?_, List.sorted_cons.mpr hs⟩
        intro b hb
        rcases List.mem_cons.mp hb with hb | hb
        · exact hb ▸ h
        · exact le_trans h (hs.1 b hb)
      · rw [if_neg h]
        rw [List.sorted_cons]
        refine ⟨?_, ih hs.2⟩
        intro b hb
        have hb' := (insertSorted_perm kv rest).mem_iff.mp hb
        rcases List.mem_cons.mp hb' with hb' | hb'
        · subst hb'
          omega
        · exact hs.1 b hb'

lemma sortByKey_sorted : ∀ (d : List (ℕ × List (List ℕ))),
    List.Sorted (fun a b : ℕ × List (List ℕ) => a.1 ≤ b.1) (sortByKey d) := by
  intro d
  induction d with
  | nil => simp [sortByKey]
  | cons kv rest ih => exact insertSorted_sorted kv _ ih

lemma lexLt_irrefl : ∀ (a : Str), lexLt a a = false := by
  intro a
  induction a with
  | nil => rfl
  | cons c as ih => simp [lexLt, ih]

lemma lexLt_trans : ∀ (a b c : Str), lexLt a b = true → lexLt b c = true → lexLt a c = true := by
  intro a
  induction a with
  | nil =>
      intro b c hab hbc
      cases b with
      | nil => simp [lexLt] at hab
      | cons y bs =>
          cases c with
          | nil => simp [lexLt] at hbc
          | cons z cs => rfl
  | cons x as ih =>
      intro b c hab hbc
      cases b with
      | nil => simp [lexLt] at hab
      | cons y bs =>
          cases c with
          | nil => simp [lexLt] at hbc
          | cons z cs =>
              rw [lexLt] at hab hbc ⊢
              by_cases hxy : x < y
              · by_cases hyz : y < z
                · rw [if_pos (lt_trans hxy hyz)]
                · rw [if_neg hyz] at hbc
                  by_cases hzy : z < y
                  · rw [if_pos hzy] at hbc
                    exact absurd hbc (by simp)
                  · have hyz' : y = z := le_antisymm (not_lt.mp hzy) (not_lt.mp hyz)
                    rw [if_pos (hyz' ▸ hxy)]
              · rw [if_neg hxy] at hab
                by_cases hyx : y < x
                · rw [if_pos hyx] at hab
                  exact absurd hab (by simp)
                · rw [if_neg hyx] at hab
                  have hxy' : x = y := le_antisymm (not_lt.mp hyx) (not_lt.mp hxy)
                  subst hxy'
                  by_cases hyz : x < z
                  · rw [if_pos hyz]
                  · rw [if_neg hyz] at hbc ⊢
                    by_cases hzy : z < x
                    · rw [if_pos hzy] at hbc
                      exact absurd hbc (by simp)
                    · rw [if_neg hzy] at hbc ⊢
                      exact ih bs cs hab hbc

lemma minAcc_cases (f s : Str) : minAcc f s = f ∨ minAcc f s = s := by
  unfold minAcc
  split_ifs <;> simp

lemma minAcc_ne_nil (f s : Str) (hs : s ≠ []) : minAcc f s ≠ [] := by
  unfold minAcc
  split_ifs with h1 h2
  · exact hs
  · exact hs
  · exact h1

lemma lexLt_self_minAcc (f s : Str) : lexLt s (minAcc f s) = false := by
  unfold minAcc
  split_ifs with h1 h2
  · exact lexLt_irrefl s
  · exact lexLt_irrefl s
  · exact Bool.not_eq_true _ ▸ (by simpa using h2)

lemma foldl_minAcc_leF : ∀ (l : List Str) (f : Str), (∀ S ∈ l, S ≠ []) →
    f = [] ∨ lexLt (l.foldl minAcc f) f = true ∨ l.foldl minAcc f = f := by
  intro l
  induction l with
  | nil => intro f _; right; right; rfl
  | cons s rest ih =>
      intro f hne
      rw [List.foldl_cons]
      by_cases hf : f = []
      · exact Or.inl hf
      · right
        have hs : s ≠ [] := hne s (by simp)
        have hrest : ∀ S ∈ rest, S ≠ [] := fun S hS => hne S (List.mem_cons_of_mem _ hS)
        have hacc : minAcc f s = if lexLt s f then s else f := by
          unfold minAcc
          rw [if_neg hf]
        by_cases hsf : lexLt s f
        · rw [hacc, if_pos hsf]
          rcases ih s hrest with h | h | h
          · exact absurd h hs
          · exact Or.inl (lexLt_trans _ _ _ h hsf)
          · rw [h]
            exact Or.inl hsf
        · rw [hacc, if_neg hsf]
          rcases ih f hrest with h | h | h
          · exact absurd h hf
          · exact Or.inl h
          · exact Or.inr h

lemma foldl_minAcc_not_lt : ∀ (l : List Str) (f : Str) (S : Str),
    (∀ T ∈ l, T ≠ []) → S ∈ l → lexLt S (l.foldl minAcc f) = false := by
  intro l
  induction l with
  | nil =>
      intro f S _ hS
      exact absurd hS (List.not_mem_nil S)
  | cons s rest ih =>
      intro f S hne hS
      rw [List.foldl_cons]
      rcases List.mem_cons.mp hS with hS | hS
      · subst hS
        have hacc_ne : minAcc f S ≠ [] := minAcc_ne_nil f S (hne S (by simp))
        have hself : lexLt S (minAcc f S) = false := lexLt_self_minAcc f S
        rcases foldl_minAcc_leF rest (minAcc f S)
            (fun T hT => hne T (List.mem_cons_of_mem _ hT)) with h | h | h
        · exact absurd h hacc_ne
        · by_contra hcon
          have hcon' : lexLt S (rest.foldl minAcc (minAcc f S)) = true := by
            cases hx : lexLt S (rest.foldl minAcc (minAcc f S))
            · exact absurd hx hcon
            · rfl
          have := lexLt_trans _ _ _ hcon' h
          rw [hself] at this
          exact absurd this (by simp)
        · rw [h]
          exact hself
      · exact ih (minAcc f s) S (fun T hT => hne T (List.mem_cons_of_mem _ hT)) hS

lemma foldl_minAcc_mem : ∀ (l : List Str) (f : Str),
    l.foldl minAcc f = f ∨ l.foldl minAcc f ∈ l := by
  intro l
  induction l with
  | nil => intro f; exact Or.inl rfl
  | cons s rest ih =>
      intro f
      rw [List.foldl_cons]
      rcases ih (minAcc f s) with h | h
      · rw [h]
        rcases minAcc_cases f s with hc | hc
        · exact Or.inl hc
        · exact Or.inr (by rw [hc]; exact List.mem_cons_self _ _)
      · exact Or.inr (List.mem_cons_of_mem _ h)

lemma foldl_minAcc_ne_nil_of_ne (l : List Str) (f : Str) (hf : f ≠ [])
    (hne : ∀ T ∈ l, T ≠ []) : l.foldl minAcc f ≠ [] := by
  rcases foldl_minAcc_mem l f with h | h
  · rw [h]
    exact hf
  · exact hne _ h

lemma foldl_minAcc_ne_nil_of_mem : ∀ (l : List Str) (f : Str) (S : Str),
    (∀ T ∈ l, T ≠ []) → S ∈ l → l.foldl minAcc f ≠ [] := by
  intro l
  induction l with
  | nil =>
      intro f S _ hS
      exact absurd hS (List.not_mem_nil S)
  | cons s rest ih =>
      intro f S hne hS
      rw [List.foldl_cons]
      exact foldl_minAcc_ne_nil_of_ne rest (minAcc f s)
        (minAcc_ne_nil f s (hne s (by simp)))
        (fun T hT => hne T (List.mem_cons_of_mem _ hT))

/-- All strings recorded by the dfs runs of one length group, in order. -/
def groupSolutions (A B Ga Gb : List Str) (cs : List (List ℕ)) : List Str :=
  (cs.map (fun c => dfsSolutions (mkCtx A B Ga Gb c) (A.length + 1) ∅ [] [] 0 0)).join

lemma runGroup_eq_foldl (A B Ga Gb : List Str) :
    ∀ (cs : List (List ℕ)) (final : Str),
      runGroup A B Ga Gb cs final = (groupSolutions A B Ga Gb cs).foldl minAcc final := by
  intro cs
  induction cs with
  | nil => intro final; rfl
  | cons c rest ih =>
      intro final
      rw [show runGroup A B Ga Gb (c :: rest) final
          = runGroup A B Ga Gb rest
              (dfs (mkCtx A B Ga Gb c) (A.length + 1) ∅ [] [] 0 0 final) from rfl]
      rw [ih, dfs_eq_foldl_solutions]
      rw [show groupSolutions A B Ga Gb (c :: rest)
          = dfsSolutions (mkCtx A B Ga Gb c) (A.length + 1) ∅ [] [] 0 0
            ++ groupSolutions A B Ga Gb rest from by simp [groupSolutions]]
      rw [List.foldl_append]

lemma dfsSolutions_all_ne_nil (A B Ga Gb : List Str) (c : List ℕ)
    (hA : ∀ s ∈ A, s ≠ []) (hdom : ∀ x ∈ c, x < A.length) :
    ∀ S ∈ dfsSolutions (mkCtx A B Ga Gb c) (A.length + 1) ∅ [] [] 0 0, S ≠ [] := by
  intro S hS
  rcases dfsSolutions_sound (mkCtx A B Ga Gb c) (A.length + 1) initSt S hS with
    ⟨l, st', s, hp, hg, hclose, hSeq⟩
  have hsc : s ∈ c := hg.2.1
  have hne : A.getD s [] ≠ [] := hA _ (getD_mem A s (hdom s hsc))
  rw [hSeq]
  show st'.a_sequence ++ A.getD s [] ≠ []
  exact fun hcon => hne (List.append_eq_nil.mp hcon).2

lemma runGroup_ne_nil (A B Ga Gb : List Str) (cs : List (List ℕ)) (final : Str)
    (c : List ℕ) (S : Str)
    (hA : ∀ s ∈ A, s ≠ []) (hdom : ∀ c' ∈ cs, ∀ x ∈ c', x < A.length)
    (hc : c ∈ cs) (hS : S ∈ dfsSolutions (mkCtx A B Ga Gb c) (A.length + 1) ∅ [] [] 0 0) :
    runGroup A B Ga Gb cs final ≠ [] := by
  rw [runGroup_eq_foldl]
  apply foldl_minAcc_ne_nil_of_mem _ final S
  · intro T hT
    rcases List.mem_join.mp hT with ⟨block, hblock, hT⟩
    rcases List.mem_map.mp hblock with ⟨c', hc', rfl⟩
    exact dfsSolutions_all_ne_nil A B Ga Gb c' hA (hdom c' hc') T hT
  · exact List.mem_join.mpr ⟨_, List.mem_map.mpr ⟨c, hc, rfl⟩, hS⟩

lemma runGroup_all_ne_nil (A B Ga Gb : List Str) (cs : List (List ℕ))
    (hA : ∀ s ∈ A, s ≠ []) (hdom : ∀ c' ∈ cs, ∀ x ∈ c', x < A.length) :
    ∀ T ∈ groupSolutions A B Ga Gb cs, T ≠ [] := by
  intro T hT
  rcases List.mem_join.mp hT with ⟨block, hblock, hT⟩
  rcases List.mem_map.mp hblock with ⟨c', hc', rfl⟩
  exact dfsSolutions_all_ne_nil A B Ga Gb c' hA (hdom c' hc') T hT

lemma solveLoop_first_success (A B Ga Gb : List Str) :
    ∀ (pre : List (ℕ × List (List ℕ))) (L : ℕ) (cs : List (List ℕ))
      (post : List (ℕ × List (List ℕ))),
      (∀ x ∈ pre, runGroup A B Ga Gb x.2 [] = []) →
      runGroup A B Ga Gb cs [] ≠ [] →
      solveLoop A B Ga Gb (pre ++ (L, cs) :: post) = runGroup A B Ga Gb cs [] := by
  intro pre
  induction pre with
  | nil =>
      intro L cs post _ hcs
      rw [List.nil_append, solveLoop, if_pos hcs]
  | cons x pre' ih =>
      intro L cs post hpre hcs
      obtain ⟨L₀, cs₀⟩ := x
      rw [List.cons_append, solveLoop]
      rw [if_neg (by
        have := hpre (L₀, cs₀) (by simp)
        simpa using this)]
      exact ih L cs post (fun y hy => hpre y (List.mem_cons_of_mem _ hy)) hcs

lemma passedLoop_mem (A B Ga Gb : List Str) :
    ∀ (groups : List (ℕ × List (List ℕ))) (C : List ℕ),
      C ∈ passedLoop A B Ga Gb groups →
      ∃ (pre : List (ℕ × List (List ℕ))) (L : ℕ) (cs : List (List ℕ))
        (post : List (ℕ × List (List ℕ))),
        groups = pre ++ (L, cs) :: post ∧ C ∈ cs
        ∧ ∀ x ∈ pre, runGroup A B Ga Gb x.2 [] = [] := by
  intro groups
  induction groups with
  | nil =>
      intro C hC
      exact absurd hC (List.not_mem_nil C)
  | cons g rest ih =>
      intro C hC
      obtain ⟨L₀, cs₀⟩ := g
      rw [passedLoop] at hC
      by_cases hrun : runGroup A B Ga Gb cs₀ [] ≠ []
      · rw [if_pos hrun] at hC
        exact ⟨[], L₀, cs₀, rest, by simp, hC, by simp⟩
      · rw [if_neg hrun] at hC
        rcases List.mem_append.mp hC with hC | hC
        · exact ⟨[], L₀, cs₀, rest, by simp, hC, by simp⟩
        · rcases ih C hC with ⟨pre, L, cs, post, hdecomp, hCc, hpre⟩
          refine ⟨(L₀, cs₀) :: pre, L, cs, post, by simp [hdecomp], hCc, ?_⟩
          intro x hx
          rcases List.mem_cons.mp hx with hx | hx
          · subst hx
            simpa using hrun
          · exact hpre x hx

lemma joinStrs_nil (strings : List Str) : joinStrs strings [] = [] := rfl

lemma joinStrs_cons (strings : List Str) (s : ℕ) (l : List ℕ) :
    joinStrs strings (s :: l) = strings.getD s [] ++ joinStrs strings l := by
  simp [joinStrs]

lemma pathFrom_facts (ctx : Ctx) (st0 : St) (l : List ℕ) (st : St)
    (h : PathFrom ctx st0 l st) :
    st.s_taken = st0.s_taken ∪ l.toFinset
    ∧ st.a_sequence = st0.a_sequence ++ joinStrs ctx.a_strings l
    ∧ st.b_sequence = st0.b_sequence ++ joinStrs ctx.b_strings l
    ∧ l.Nodup ∧ (∀ x ∈ l, x ∈ ctx.combination) ∧ (∀ x ∈ l, x ∉ st0.s_taken) := by
  induction h with
  | nil st => simp [joinStrs_nil]
  | cons st₁ s l' st' hg hne tail ih =>
      obtain ⟨ht, ha, hb, hnd, hcomb, hnot⟩ := ih
      refine ⟨?_, ?_, ?_, ?_, ?_, ?_⟩
      · rw [ht]
        show insert s st₁.s_taken ∪ l'.toFinset = st₁.s_taken ∪ (s :: l').toFinset
        rw [List.toFinset_cons, Finset.insert_union, Finset.union_insert]
      · rw [ha]
        show (st₁.a_sequence ++ ctx.a_strings.getD s []) ++ joinStrs ctx.a_strings l'
          = st₁.a_sequence ++ joinStrs ctx.a_strings (s :: l')
        rw [joinStrs_cons, List.append_assoc]
      · rw [hb]
        show (st₁.b_sequence ++ ctx.b_strings.getD s []) ++ joinStrs ctx.b_strings l'
          = st₁.b_sequence ++ joinStrs ctx.b_strings (s :: l')
        rw [joinStrs_cons, List.append_assoc]
      · rw [List.nodup_cons]
        refine ⟨?_, hnd⟩
        intro hs
        have := hnot s hs
        exact this (Finset.mem_insert_self s st₁.s_taken)
      · intro x hx
        rcases List.mem_cons.mp hx with hx | hx
        · exact hx ▸ hg.2.1
        · exact hcomb x hx
      · intro x hx
        rcases List.mem_cons.mp hx with hx | hx
        · exact hx ▸ hg.2.2.1
        · intro hmem
          exact hnot x hx (Finset.mem_insert_of_mem hmem)

lemma pathFrom_change_combination (ctx : Ctx) (c₂ : List ℕ) (st0 : St) (l : List ℕ) (st : St)
    (h : PathFrom ctx st0 l st) :
    (∀ x ∈ l, x ∈ c₂) → PathFrom { ctx with combination := c₂ } st0 l st := by
  induction h with
  | nil st => intro _; exact PathFrom.nil st
  | cons st₁ s l' st' hg hne tail ih =>
      intro hmem
      exact PathFrom.cons st₁ s l' st'
        ⟨hg.1, hmem s (by simp), hg.2.2.1, hg.2.2.2⟩ hne
        (ih (fun x hx => hmem x (List.mem_cons_of_mem _ hx)))

lemma stepGuard_change_combination (ctx : Ctx) (c₂ : List ℕ) (st : St) (s : ℕ)
    (hg : stepGuard ctx st s) (hs : s ∈ c₂) :
    stepGuard { ctx with combination := c₂ } st s :=
  ⟨hg.1, hs, hg.2.2.1, hg.2.2.2⟩

lemma joinStrs_append (strings : List Str) (l₁ l₂ : List ℕ) :
    joinStrs strings (l₁ ++ l₂) = joinStrs strings l₁ ++ joinStrs strings l₂ := by
  simp [joinStrs]

lemma recorded_full (ctx : Ctx) (S : Str) (h : RecordedVia ctx initSt S) :
    ∃ lfull : List ℕ, lfull ≠ [] ∧ lfull.Nodup ∧ (∀ x ∈ lfull, x ∈ ctx.combination)
      ∧ joinStrs ctx.a_strings lfull = S ∧ joinStrs ctx.b_strings lfull = S
      ∧ (∃ s₀ ∈ lfull, s₀ ∈ ctx.s_options_for_beginning)
      ∧ (∃ sl ∈ lfull, ctx.a_strings.getD sl [] <:+ S ∧ ctx.b_strings.getD sl [] <:+ S)
      ∧ (∀ (c₂ : List ℕ), (∀ x ∈ lfull, x ∈ c₂) → ∀ (fuel : ℕ), lfull.length ≤ fuel →
          S ∈ dfsSolutions { ctx with combination := c₂ } fuel ∅ [] [] 0 0) := by
  rcases h with ⟨l, st', s, hp, hg, hclose, hSeq⟩
  obtain ⟨ht, ha, hb, hnd, hcomb, -⟩ := pathFrom_facts ctx initSt l st' hp
  have htaken : st'.s_taken = l.toFinset := by simpa [initSt] using ht
  have haseq : st'.a_sequence = joinStrs ctx.a_strings l := by simpa [initSt] using ha
  have hbseq : st'.b_sequence = joinStrs ctx.b_strings l := by simpa [initSt] using hb
  have hinv : StInv (nextSt ctx st' s) :=
    stInv_step ctx st' s (stInv_pathFrom ctx initSt l st' hp stInv_initSt) hg.2.2.2
  have habeq : (nextSt ctx st' s).a_sequence = (nextSt ctx st' s).b_sequence := by
    obtain ⟨hia, hib, htk⟩ := hinv
    have hmin : min (nextSt ctx st' s).a_index (nextSt ctx st' s).b_index
        = (nextSt ctx st' s).a_index := by
      rw [hclose, min_self]
    rw [hmin, hia, List.take_length] at htk
    rw [htk]
    have hlen : (nextSt ctx st' s).a_sequence.length = (nextSt ctx st' s).b_sequence.length := by
      rw [← hia, ← hib, hclose]
    rw [hlen, List.take_length]
  refine ⟨l ++ [s], by simp, ?_, ?_, ?_, ?_, ?_, ?_, ?_⟩
  · rw [List.nodup_append]
    refine ⟨hnd, by simp, ?_⟩
    intro x hx hxs
    have hxe : x = s := by simpa using hxs
    subst hxe
    exact hg.2.2.1 (htaken ▸ List.mem_toFinset.mpr hx)
  · intro x hx
    rcases List.mem_append.mp hx with hx | hx
    · exact hcomb x hx
    · have : x = s := by simpa using hx
      exact this ▸ hg.2.1
  · rw [joinStrs_append, ← haseq, hSeq]
    rw [joinStrs_cons, joinStrs_nil, List.append_nil]
    rfl
  · rw [joinStrs_append, ← hbseq, hSeq, habeq]
    rw [joinStrs_cons, joinStrs_nil, List.append_nil]
    rfl
  · cases hl : l with
    | nil =>
        refine ⟨s, by simp, ?_⟩
        subst hl
        cases hp
        simpa [sOptions, initSt] using hg.1
    | cons s₀ l' =>
        subst hl
        cases hp with
        | cons _ _ _ _ hg₀ _ _ =>
            exact ⟨s₀, by simp, by simpa [sOptions, initSt] using hg₀.1⟩
  · refine ⟨s, by simp, ?_, ?_⟩
    · rw [hSeq]
      exact List.suffix_append st'.a_sequence _
    · rw [hSeq, habeq]
      exact List.suffix_append st'.b_sequence _
  · intro c₂ hmem fuel hfuel
    have hpath2 : PathFrom { ctx with combination := c₂ } initSt l st' :=
      pathFrom_change_combination ctx c₂ initSt l st' hp
        (fun x hx => hmem x (List.mem_append_left _ hx))
    have hguard2 : stepGuard { ctx with combination := c₂ } st' s :=
      stepGuard_change_combination ctx c₂ st' s hg (hmem s (by simp))
    have hflt : l.length < fuel := by
      have : (l ++ [s]).length = l.length + 1 := by simp
      omega
    have := dfsSolutions_complete { ctx with combination := c₂ } l initSt st' hpath2
      s fuel hguard2 hclose hflt
    rw [hSeq]
    exact this

lemma length_joinStrs (strings : List Str) (l : List ℕ) :
    (joinStrs strings l).length = sumLen strings l := by
  rw [joinStrs, sumLen, List.length_join, List.map_map]
  rfl

lemma sumLen_perm (strings : List Str) (c l : List ℕ) (h : c.Perm l) :
    sumLen strings c = sumLen strings l := by
  rw [sumLen, sumLen]
  exact (h.map _).sum_eq

lemma joinStrs_perm (strings : List Str) (c l : List ℕ) (h : c.Perm l) :
    (joinStrs strings c).Perm (joinStrs strings l) :=
  (h.map _).join

lemma sort_toFinset_perm (l : List ℕ) (hnd : l.Nodup) :
    (l.toFinset.sort (· ≤ ·)).Perm l :=
  List.perm_of_nodup_nodup_toFinset_eq (Finset.sort_nodup _ _) hnd
    (Finset.sort_toFinset _ _)

lemma sort_sublist_range (l : List ℕ) (n : ℕ) (hdom : ∀ x ∈ l, x < n) :
    List.Sublist (l.toFinset.sort (· ≤ ·)) (List.range n) := by
  apply List.sublist_of_subperm_of_sorted
    ((Finset.sort_nodup _ _).subperm ?_) (Finset.sort_sorted _ _) (List.sorted_le_range n)
  intro x hx
  rw [List.mem_range]
  exact hdom x (List.mem_toFinset.mp ((Finset.mem_sort _).mp hx))

lemma subset_combo_in_ebf (A B : List Str) (lfull : List ℕ) (S : Str)
    (hne : lfull ≠ []) (hnd : lfull.Nodup)
    (hdom : ∀ x ∈ lfull, x < A.length)
    (hjA : joinStrs A lfull = S) (hjB : joinStrs B lfull = S)
    (hbeg : ∃ s₀ ∈ lfull, s₀ ∈ prefixFilter A.length A B)
    (hsuf : ∃ sl ∈ lfull, A.getD sl [] <:+ S ∧ B.getD sl [] <:+ S) :
    (lfull.toFinset.sort (· ≤ ·)) ∈
      lookupD (elements_balance_filter A B
        (length_balance_filter A B (prefixFilter A.length A B) (postfixFilter A.length A B)))
        (sumLen A (lfull.toFinset.sort (· ≤ ·))) := by
  set c := lfull.toFinset.sort (· ≤ ·) with hc
  have hperm : c.Perm lfull := sort_toFinset_perm lfull hnd
  have hcne : c ≠ [] := by
    intro h
    rw [h] at hperm
    exact hne hperm.symm.eq_nil
  have hmemc : ∀ x, x ∈ c ↔ x ∈ lfull := fun x => hperm.mem_iff
  have hsum : sumLen A c = sumLen B c := by
    rw [sumLen_perm A c lfull hperm, sumLen_perm B c lfull hperm]
    rw [← length_joinStrs, ← length_joinStrs, hjA, hjB]
  have hmul : ebCond A B c := by
    rw [ebCond]
    rw [Multiset.coe_eq_coe]
    exact ((joinStrs_perm A c lfull hperm).trans
      (by rw [hjA, ← hjB])).trans (joinStrs_perm B c lfull hperm).symm
  have hibeg : intersects c (prefixFilter A.length A B) = true := by
    rcases hbeg with ⟨s₀, hs₀, hmem⟩
    rw [intersects, List.any_eq_true]
    exact ⟨s₀, (hmemc s₀).mpr hs₀, by simpa using hmem⟩
  have hiend : intersects c (postfixFilter A.length A B) = true := by
    rcases hsuf with ⟨sl, hsl, hsa, hsb⟩
    rw [intersects, List.any_eq_true]
    refine ⟨sl, (hmemc sl).mpr hsl, ?_⟩
    simp only [decide_eq_true_eq]
    rw [postfixFilter, Finset.mem_filter, Finset.mem_range]
    refine ⟨hdom sl hsl, ?_⟩
    rcases List.suffix_or_suffix_of_suffix hsb hsa with h | h
    · exact Or.inl h
    · exact Or.inr h
  have hall : c ∈ allCombos A.length :=
    (mem_allCombos A.length c).mpr ⟨hcne, sort_sublist_range lfull A.length hdom⟩
  have hlb : c ∈ lookupD (length_balance_filter A B
      (prefixFilter A.length A B) (postfixFilter A.length A B)) (sumLen A c) := by
    rw [lookupD_length_balance_filter, List.mem_filter]
    refine ⟨hall, ?_⟩
    rw [Bool.and_eq_true, decide_eq_true_eq, decide_eq_true_eq]
    exact ⟨⟨hsum, hibeg, hiend⟩, rfl⟩
  rw [lookupD_elements_balance_filter A B _ (keys_nodup_length_balance_filter A B _ _),
    List.mem_filter]
  exact ⟨hlb, by simpa using hmul⟩

lemma ebf_mem_facts (A B : List Str) (sb se : Finset ℕ) (L : ℕ) (c : List ℕ)
    (h : c ∈ lookupD (elements_balance_filter A B (length_balance_filter A B sb se)) L) :
    c ∈ allCombos A.length ∧ lbCond A B sb se c ∧ sumLen A c = L ∧ ebCond A B c := by
  rw [lookupD_elements_balance_filter A B _ (keys_nodup_length_balance_filter A B sb se),
    List.mem_filter] at h
  obtain ⟨hlb, heb⟩ := h
  rw [lookupD_length_balance_filter, List.mem_filter] at hlb
  obtain ⟨hall, hcond⟩ := hlb
  rw [Bool.and_eq_true, decide_eq_true_eq, decide_eq_true_eq] at hcond
  exact ⟨hall, hcond.1, hcond.2, by simpa using heb⟩

lemma allCombos_facts (n : ℕ) (c : List ℕ) (h : c ∈ allCombos n) :
    c ≠ [] ∧ c.Nodup ∧ ∀ x ∈ c, x < n := by
  rcases (mem_allCombos n c).mp h with ⟨hne, hsub⟩
  exact ⟨hne, hsub.nodup (List.nodup_range n),
    fun x hx => List.mem_range.mp (hsub.subset hx)⟩

/-- C1: for every combination `C` on which `solve` (run as the main loop
runs it, with the globals equal to the constructor arguments) invokes the
Matcher, every solution string `S` the Matcher records while searching
`C` is the concatenation of the `a`-strings of some ordering of indices,
equals the concatenation of the `b`-strings in the same order, and that
ordering uses every index of `C` exactly once.  (At the `dfs` level alone
this can fail — `dfs` never checks full consumption — but a combination
with a closing proper subset would have made a strictly shorter length
group succeed, so `solve` never passes such a combination.) -/
theorem matcher_solution_uses_whole_combination (A B : List Str)
    (hA : ∀ s ∈ A, s ≠ [])
    (C : List ℕ) (hC : C ∈ passedCombos A B A B)
    (S : Str) (hS : S ∈ dfsSolutions (mkCtx A B A B C) (A.length + 1) ∅ [] [] 0 0) :
    ∃ l : List ℕ, l.Nodup ∧ (∀ i : ℕ, (i ∈ l ↔ i ∈ C))
      ∧ joinStrs A l = S ∧ joinStrs B l = S := by
  unfold passedCombos at hC
  dsimp only at hC
  split at hC
  · exact absurd hC (List.not_mem_nil C)
  split at hC
  · exact absurd hC (List.not_mem_nil C)
  rcases passedLoop_mem A B A B _ C hC with ⟨pre, L, cs, post, hdecomp, hCc, hpre⟩
  have hmemg : (L, cs) ∈ sortByKey (elements_balance_filter A B
      (length_balance_filter A B (prefixFilter A.length A B) (postfixFilter A.length A B))) := by
    rw [hdecomp]
    exact List.mem_append_right _ (List.mem_cons_self _ _)
  have hkeys := keys_nodup_elements_balance_filter A B
    (length_balance_filter A B (prefixFilter A.length A B) (postfixFilter A.length A B))
  have hmemebf := (sortByKey_perm _).mem_iff.mp hmemg
  have hcs : lookupD (elements_balance_filter A B
      (length_balance_filter A B (prefixFilter A.length A B) (postfixFilter A.length A B))) L
      = cs := ((mem_dict_iff_lookupD _ hkeys L cs).mp hmemebf).2
  obtain ⟨hCall, hClb, hCsum, hCeb⟩ :=
    ebf_mem_facts A B (prefixFilter A.length A B) (postfixFilter A.length A B) L C
      (hcs ▸ hCc)
  obtain ⟨hCne, hCnd, hCdom⟩ := allCombos_facts A.length C hCall
  have hrec := dfsSolutions_sound (mkCtx A B A B C) (A.length + 1) initSt S hS
  rcases recorded_full _ S hrec with
    ⟨lfull, hlne, hlnd, hlcomb, hjA, hjB, hbeg, hsuf, hreplay⟩
  have hlC : ∀ x ∈ lfull, x ∈ C := hlcomb
  have hldom : ∀ x ∈ lfull, x < A.length := fun x hx => hCdom x (hlC x hx)
  by_cases hset : lfull.toFinset = C.toFinset
  · refine ⟨lfull, hlnd, ?_, hjA, hjB⟩
    intro i
    rw [← List.mem_toFinset, hset, List.mem_toFinset]
  · exfalso
    have hsub : lfull.toFinset ⊆ C.toFinset := fun x hx =>
      List.mem_toFinset.mpr (hlC x (List.mem_toFinset.mp hx))
    have hss : lfull.toFinset ⊂ C.toFinset := ⟨hsub, fun h => hset (le_antisymm hsub h)⟩
    obtain ⟨i₀, hi₀C, hi₀l⟩ := Finset.exists_of_ssubset hss
    have hjA' : joinStrs A lfull = S := hjA
    have hjB' : joinStrs B lfull = S := hjB
    have hbeg' : ∃ s₀ ∈ lfull, s₀ ∈ prefixFilter A.length A B := hbeg
    have hsuf' : ∃ sl ∈ lfull, A.getD sl [] <:+ S ∧ B.getD sl [] <:+ S := hsuf
    have hcmem := subset_combo_in_ebf A B lfull S hlne hlnd hldom hjA' hjB' hbeg' hsuf'
    have hlt : sumLen A (lfull.toFinset.sort (· ≤ ·)) < sumLen A C := by
      have hLstar : sumLen A (lfull.toFinset.sort (· ≤ ·))
          = lfull.toFinset.sum (fun i => (A.getD i []).length) := by
        rw [sumLen_perm A _ lfull (sort_toFinset_perm lfull hlnd), sumLen]
        exact (List.sum_toFinset _ hlnd).symm
      have hLC : sumLen A C = C.toFinset.sum (fun i => (A.getD i []).length) := by
        rw [sumLen]
        exact (List.sum_toFinset _ hCnd).symm
      rw [hLstar, hLC]
      apply Finset.sum_lt_sum_of_subset hss.subset hi₀C hi₀l
      · exact List.length_pos.mpr
          (hA _ (getD_mem A i₀ (hCdom i₀ (List.mem_toFinset.mp hi₀C))))
      · intro j _ _
        exact Nat.zero_le _
    have hne' := List.ne_nil_of_mem hcmem
    have hkeymem := (mem_keys_iff_lookupD_ne _
      (values_ne_nil_elements_balance_filter A B _) _).mpr hne'
    have hentry := (mem_dict_iff_lookupD _ hkeys _ _).mpr ⟨hkeymem, rfl⟩
    have hentry_sorted := (sortByKey_perm _).mem_iff.mpr hentry
    rw [hdecomp] at hentry_sorted
    rcases List.mem_append.mp hentry_sorted with hmem | hmem
    · have hfail := hpre _ hmem
      refine absurd hfail ?_
      apply runGroup_ne_nil A B A B _ [] (lfull.toFinset.sort (· ≤ ·)) S hA
      · intro c' hc' x hx
        have hfacts := ebf_mem_facts A B (prefixFilter A.length A B)
          (postfixFilter A.length A B) _ c' hc'
        exact (allCombos_facts A.length c' hfacts.1).2.2 x hx
      · exact hcmem
      · have hlen : lfull.length ≤ A.length + 1 := by
          have h1 : lfull.toFinset.card = lfull.length := List.toFinset_card_of_nodup hlnd
          have h2 : lfull.toFinset ⊆ Finset.range A.length := fun x hx =>
            Finset.mem_range.mpr (hldom x (List.mem_toFinset.mp hx))
          have h3 := Finset.card_le_card h2
          rw [Finset.card_range] at h3
          omega
        exact hreplay (lfull.toFinset.sort (· ≤ ·))
          (fun x hx => (sort_toFinset_perm lfull hlnd).mem_iff.mpr hx)
          (A.length + 1) hlen
    · rcases List.mem_cons.mp hmem with hmem | hmem
      · have hkey : sumLen A (lfull.toFinset.sort (· ≤ ·)) = L := (Prod.ext_iff.mp hmem).1
        omega
      · have hsorted := sortByKey_sorted (elements_balance_filter A B
          (length_balance_filter A B (prefixFilter A.length A B) (postfixFilter A.length A B)))
        rw [hdecomp] at hsorted
        rcases List.pairwise_append.mp hsorted with ⟨-, hsorted2, -⟩
        have hle := (List.sorted_cons.mp hsorted2).1 _ hmem
        simp only at hle
        omega

/-- Witness for C1 on the single pair `("a", "a")`, whose only passed
combination is `[0]` and whose only recorded solution is `"a"`. -/
theorem matcher_solution_uses_whole_combination_witness :
    ∃ l : List ℕ, l.Nodup ∧ (∀ i : ℕ, (i ∈ l ↔ i ∈ [0]))
      ∧ joinStrs [['a']] l = ['a'] ∧ joinStrs [['a']] l = ['a'] :=
  matcher_solution_uses_whole_combination [['a']] [['a']] (by decide) [0] (by decide)
    ['a'] (by decide)

/-- C4: every index subset surviving the full filter pipeline (an entry of
the `elements_balance_filter` output) has equal total `a`- and
`b`-lengths, both equal to its group key, identical character multisets
between the joined `a`- and `b`-strings, and nonempty intersections with
the beginning- and ending-candidate sets. -/
theorem surviving_combination_balanced (A B : List Str) (sb se : Finset ℕ)
    (L : ℕ) (cs : List (List ℕ)) (c : List ℕ)
    (hmem : (L, cs) ∈ elements_balance_filter A B (length_balance_filter A B sb se))
    (hc : c ∈ cs) :
    sumLen A c = L ∧ sumLen B c = L
    ∧ (joinStrs A c : Multiset Char) = (joinStrs B c : Multiset Char)
    ∧ (∃ i ∈ c, i ∈ sb) ∧ (∃ i ∈ c, i ∈ se) := by
  have hkeys := keys_nodup_elements_balance_filter A B (length_balance_filter A B sb se)
  have hcs := ((mem_dict_iff_lookupD _ hkeys L cs).mp hmem).2
  obtain ⟨hall, hlb, hsum, heb⟩ := ebf_mem_facts A B sb se L c (hcs ▸ hc)
  obtain ⟨hab, hib, hie⟩ := hlb
  refine ⟨hsum, by omega, heb, ?_, ?_⟩
  · rcases List.any_eq_true.mp hib with ⟨i, hi, hdec⟩
    exact ⟨i, hi, by simpa using hdec⟩
  · rcases List.any_eq_true.mp hie with ⟨i, hi, hdec⟩
    exact ⟨i, hi, by simpa using hdec⟩

/-- Witness for C4 on the single pair `("a", "a")`. -/
theorem surviving_combination_balanced_witness :
    sumLen [['a']] [0] = 1 ∧ sumLen [['a']] [0] = 1
    ∧ (joinStrs [['a']] [0] : Multiset Char) = (joinStrs [['a']] [0] : Multiset Char)
    ∧ (∃ i ∈ [0], i ∈ ({0} : Finset ℕ)) ∧ (∃ i ∈ [0], i ∈ ({0} : Finset ℕ)) :=
  surviving_combination_balanced [['a']] [['a']] {0} {0} 1 [[0]] [0] (by decide) (by decide)

lemma solveG_first_group (A B Ga Gb : List Str)
    (pre : List (ℕ × List (List ℕ))) (L : ℕ) (cs : List (List ℕ))
    (post : List (ℕ × List (List ℕ)))
    (hdecomp : sortByKey (elements_balance_filter A B (length_balance_filter A B
        (prefixFilter A.length Ga Gb) (postfixFilter A.length Ga Gb)))
      = pre ++ (L, cs) :: post)
    (hpre : ∀ x ∈ pre, runGroup A B Ga Gb x.2 [] = [])
    (hcs : runGroup A B Ga Gb cs [] ≠ []) :
    solveG A B Ga Gb = runGroup A B Ga Gb cs [] := by
  have hmemg : (L, cs) ∈ sortByKey (elements_balance_filter A B (length_balance_filter A B
      (prefixFilter A.length Ga Gb) (postfixFilter A.length Ga Gb))) := by
    rw [hdecomp]
    exact List.mem_append_right _ (List.mem_cons_self _ _)
  have hmemebf := (sortByKey_perm _).mem_iff.mp hmemg
  have hkeys := keys_nodup_elements_balance_filter A B (length_balance_filter A B
    (prefixFilter A.length Ga Gb) (postfixFilter A.length Ga Gb))
  have hcsne : cs ≠ [] :=
    values_ne_nil_elements_balance_filter A B _ (L, cs) hmemebf
  obtain ⟨c₀, hc₀⟩ := List.exists_mem_of_ne_nil cs hcsne
  have hcs0 := ((mem_dict_iff_lookupD _ hkeys L cs).mp hmemebf).2
  obtain ⟨-, hlb, -, -⟩ := ebf_mem_facts A B _ _ L c₀ (hcs0 ▸ hc₀)
  have hbegne : ¬ prefixFilter A.length Ga Gb = ∅ := by
    rcases List.any_eq_true.mp hlb.2.1 with ⟨i, -, hdec⟩
    intro h
    rw [h] at hdec
    simp at hdec
  have hendne : ¬ postfixFilter A.length Ga Gb = ∅ := by
    rcases List.any_eq_true.mp hlb.2.2 with ⟨i, -, hdec⟩
    intro h
    rw [h] at hdec
    simp at hdec
  have hebfne : elements_balance_filter A B (length_balance_filter A B
      (prefixFilter A.length Ga Gb) (postfixFilter A.length Ga Gb)) ≠ [] :=
    List.ne_nil_of_mem hmemebf
  have hlbfne : length_balance_filter A B
      (prefixFilter A.length Ga Gb) (postfixFilter A.length Ga Gb) ≠ [] := by
    intro h
    rw [h] at hmemebf
    exact absurd hmemebf (List.not_mem_nil _)
  unfold solveG
  dsimp only
  rw [if_neg hbegne, if_neg hendne, if_neg hlbfne, if_neg hebfne, hdecomp,
    solveLoop_first_success A B Ga Gb pre L cs post hpre hcs, if_neg hcs]

/-- C5: the length groups are processed in strictly ascending order of
total length, and `solve` returns the first group that records anything:
all groups before the returning one are strictly shorter and failed, all
groups after it are strictly longer and never reached. -/
theorem groups_ascending_first_success (A B Ga Gb : List Str)
    (pre : List (ℕ × List (List ℕ))) (L : ℕ) (cs : List (List ℕ))
    (post : List (ℕ × List (List ℕ)))
    (hdecomp : sortByKey (elements_balance_filter A B (length_balance_filter A B
        (prefixFilter A.length Ga Gb) (postfixFilter A.length Ga Gb)))
      = pre ++ (L, cs) :: post)
    (hpre : ∀ x ∈ pre, runGroup A B Ga Gb x.2 [] = [])
    (hcs : runGroup A B Ga Gb cs [] ≠ []) :
    solveG A B Ga Gb = runGroup A B Ga Gb cs []
    ∧ (∀ x ∈ pre, x.1 < L) ∧ (∀ x ∈ post, L < x.1) := by
  have hkeys := keys_nodup_elements_balance_filter A B (length_balance_filter A B
    (prefixFilter A.length Ga Gb) (postfixFilter A.length Ga Gb))
  refine ⟨solveG_first_group A B Ga Gb pre L cs post hdecomp hpre hcs, ?_, ?_⟩
  · intro x hx
    have hsorted := sortByKey_sorted (elements_balance_filter A B (length_balance_filter A B
      (prefixFilter A.length Ga Gb) (postfixFilter A.length Ga Gb)))
    rw [hdecomp] at hsorted
    have hle := (List.pairwise_append.mp hsorted).2.2 x hx (L, cs) (List.mem_cons_self _ _)
    have hkeys_sorted : (((pre ++ (L, cs) :: post)).map Prod.fst).Nodup := by
      rw [← hdecomp]
      exact ((sortByKey_perm _).map Prod.fst).nodup_iff.mpr hkeys
    rw [List.map_append, List.nodup_append] at hkeys_sorted
    have hne := hkeys_sorted.2.2 (List.mem_map.mpr ⟨x, hx, rfl⟩)
    have : x.1 ≠ L := by
      intro h
      exact hne (by rw [List.map_cons]; exact List.mem_cons.mpr (Or.inl h))
    simp only at hle
    omega
  · intro x hx
    have hsorted := sortByKey_sorted (elements_balance_filter A B (length_balance_filter A B
      (prefixFilter A.length Ga Gb) (postfixFilter A.length Ga Gb)))
    rw [hdecomp] at hsorted
    have hsorted2 := (List.pairwise_append.mp hsorted).2.1
    have hle := (List.sorted_cons.mp hsorted2).1 x hx
    have hkeys_sorted : (((pre ++ (L, cs) :: post)).map Prod.fst).Nodup := by
      rw [← hdecomp]
      exact ((sortByKey_perm _).map Prod.fst).nodup_iff.mpr hkeys
    rw [List.map_append, List.map_cons, List.nodup_append] at hkeys_sorted
    have hnotin := (List.nodup_cons.mp hkeys_sorted.2.1).1
    have : L ≠ x.1 := by
      intro h
      exact hnotin (h ▸ List.mem_map.mpr ⟨x, hx, rfl⟩)
    simp only at hle
    omega

/-- Witness for C5 on the pairs `("a","a"), ("bc","cb")`: the length-1
group wins, the length-3 group is after it. -/
theorem groups_ascending_first_success_witness :
    solveG [['a'], ['b', 'c']] [['a'], ['c', 'b']] [['a'], ['b', 'c']] [['a'], ['c', 'b']]
      = runGroup [['a'], ['b', 'c']] [['a'], ['c', 'b']] [['a'], ['b', 'c']] [['a'], ['c', 'b']]
          [[0]] []
    ∧ (∀ x ∈ ([] : List (ℕ × List (List ℕ))), x.1 < 1)
    ∧ (∀ x ∈ [(3, [[0, 1]])], 1 < x.1) :=
  groups_ascending_first_success [['a'], ['b', 'c']] [['a'], ['c', 'b']]
    [['a'], ['b', 'c']] [['a'], ['c', 'b']] [] 1 [[0]] [(3, [[0, 1]])]
    (by decide) (by decide) (by decide)

/-- C6: whenever any filter stage comes out empty, `solve` reports the
sentinel IMPOSSIBLE (the stages are checked in order and the function
returns the sentinel without running the Matcher; the embedding is a
total function, matching the source, which raises no exception on any
list input). -/
theorem solve_impossible_on_empty_stage (A B Ga Gb : List Str)
    (h : prefixFilter A.length Ga Gb = ∅
      ∨ postfixFilter A.length Ga Gb = ∅
      ∨ length_balance_filter A B (prefixFilter A.length Ga Gb)
          (postfixFilter A.length Ga Gb) = []
      ∨ elements_balance_filter A B (length_balance_filter A B
          (prefixFilter A.length Ga Gb) (postfixFilter A.length Ga Gb)) = []) :
    solveG A B Ga Gb = IMPOSSIBLE := by
  unfold solveG
  dsimp only
  by_cases h1 : prefixFilter A.length Ga Gb = ∅
  · rw [if_pos h1]
  · rw [if_neg h1]
    by_cases h2 : postfixFilter A.length Ga Gb = ∅
    · rw [if_pos h2]
    · rw [if_neg h2]
      by_cases h3 : length_balance_filter A B (prefixFilter A.length Ga Gb)
          (postfixFilter A.length Ga Gb) = []
      · rw [if_pos h3]
      · rw [if_neg h3]
        by_cases h4 : elements_balance_filter A B (length_balance_filter A B
            (prefixFilter A.length Ga Gb) (postfixFilter A.length Ga Gb)) = []
        · rw [if_pos h4]
        · rcases h with h | h | h | h
          · exact absurd h h1
          · exact absurd h h2
          · exact absurd h h3
          · exact absurd h h4

/-- Witness for C6 on the pair `("a", "b")`, whose prefix filter is empty. -/
theorem solve_impossible_on_empty_stage_witness :
    solveG [['a']] [['b']] [['a']] [['b']] = IMPOSSIBLE :=
  solve_impossible_on_empty_stage [['a']] [['b']] [['a']] [['b']] (Or.inl (by decide))

/-- Counterexample for C2 on the pairs `("b","b"), ("a","a")`: both
singleton combinations sit in the same length-1 group, the combination
processed first (`[0]`) records `"b"`, yet `solve` returns `"a"` — the
engine does keep comparing results across combinations of the same total
length after one has produced a result. -/
theorem same_length_first_result_counterexample :
    sortByKey (elements_balance_filter [['b'], ['a']] [['b'], ['a']]
        (length_balance_filter [['b'], ['a']] [['b'], ['a']]
          (prefixFilter 2 [['b'], ['a']] [['b'], ['a']])
          (postfixFilter 2 [['b'], ['a']] [['b'], ['a']])))
      = [(1, [[0], [1]]), (2, [[0, 1]])]
    ∧ dfs (mkCtx [['b'], ['a']] [['b'], ['a']] [['b'], ['a']] [['b'], ['a']] [0]) 3
        ∅ [] [] 0 0 [] = ['b']
    ∧ solve [['b'], ['a']] [['b'], ['a']] = ['a']
    ∧ (['a'] : Str) ≠ ['b'] :=
  ⟨by decide, by decide, by decide, by decide⟩

/-- C2 amended: `final_sequence` persists across the combinations of a
length group and is updated with `min`, so the Orchestrator returns the
lexicographically smallest string recorded across all combinations of
the first length group that records anything — it does compare results
across different combinations of the same total length. -/
theorem group_result_is_min_across_combinations (A B Ga Gb : List Str)
    (hA : ∀ s ∈ A, s ≠ [])
    (pre : List (ℕ × List (List ℕ))) (L : ℕ) (cs : List (List ℕ))
    (post : List (ℕ × List (List ℕ)))
    (hdecomp : sortByKey (elements_balance_filter A B (length_balance_filter A B
        (prefixFilter A.length Ga Gb) (postfixFilter A.length Ga Gb)))
      = pre ++ (L, cs) :: post)
    (hpre : ∀ x ∈ pre, runGroup A B Ga Gb x.2 [] = [])
    (hcs : runGroup A B Ga Gb cs [] ≠ []) :
    solveG A B Ga Gb = runGroup A B Ga Gb cs []
    ∧ runGroup A B Ga Gb cs [] ∈ groupSolutions A B Ga Gb cs
    ∧ ∀ S ∈ groupSolutions A B Ga Gb cs, lexLt S (runGroup A B Ga Gb cs []) = false := by
  have hmemg : (L, cs) ∈ sortByKey (elements_balance_filter A B (length_balance_filter A B
      (prefixFilter A.length Ga Gb) (postfixFilter A.length Ga Gb))) := by
    rw [hdecomp]
    exact List.mem_append_right _ (List.mem_cons_self _ _)
  have hmemebf := (sortByKey_perm _).mem_iff.mp hmemg
  have hkeys := keys_nodup_elements_balance_filter A B (length_balance_filter A B
    (prefixFilter A.length Ga Gb) (postfixFilter A.length Ga Gb))
  have hcseq := ((mem_dict_iff_lookupD _ hkeys L cs).mp hmemebf).2
  have hdom : ∀ c ∈ cs, ∀ x ∈ c, x < A.length := by
    intro c hc x hx
    have hfacts := ebf_mem_facts A B (prefixFilter A.length Ga Gb)
      (postfixFilter A.length Ga Gb) L c (hcseq ▸ hc)
    exact (allCombos_facts A.length c hfacts.1).2.2 x hx
  have hne := runGroup_all_ne_nil A B Ga Gb cs hA hdom
  refine ⟨solveG_first_group A B Ga Gb pre L cs post hdecomp hpre hcs, ?_, ?_⟩
  · rcases foldl_minAcc_mem (groupSolutions A B Ga Gb cs) [] with h | h
    · rw [← runGroup_eq_foldl] at h
      exact absurd h hcs
    · rw [runGroup_eq_foldl]
      exact h
  · intro S hS
    rw [runGroup_eq_foldl]
    exact foldl_minAcc_not_lt (groupSolutions A B Ga Gb cs) [] S hne hS

/-- Witness for the amended C2 on the counterexample instance. -/
theorem group_result_is_min_across_combinations_witness :
    solveG [['b'], ['a']] [['b'], ['a']] [['b'], ['a']] [['b'], ['a']]
      = runGroup [['b'], ['a']] [['b'], ['a']] [['b'], ['a']] [['b'], ['a']] [[0], [1]] []
    ∧ runGroup [['b'], ['a']] [['b'], ['a']] [['b'], ['a']] [['b'], ['a']] [[0], [1]] []
      ∈ groupSolutions [['b'], ['a']] [['b'], ['a']] [['b'], ['a']] [['b'], ['a']] [[0], [1]]
    ∧ ∀ S ∈ groupSolutions [['b'], ['a']] [['b'], ['a']] [['b'], ['a']] [['b'], ['a']] [[0], [1]],
        lexLt S (runGroup [['b'], ['a']] [['b'], ['a']] [['b'], ['a']] [['b'], ['a']]
          [[0], [1]] []) = false :=
  group_result_is_min_across_combinations [['b'], ['a']] [['b'], ['a']] [['b'], ['a']]
    [['b'], ['a']] (by decide) [] 1 [[0], [1]] [(2, [[0, 1]])]
    (by decide) (by decide) (by decide)

/-- C10: the prefix and postfix filters read the module-level globals
(`a_lines`/`b_lines`), which are explicit parameters of the embedding,
not the constructor strings; the candidate sets are characterised purely
by the globals, a `ModifiedPCP` instance built with strings different
from the current globals computes its result from the globals (concrete
divergence below), and the main input loop always runs with the globals
equal to the constructor arguments. -/
theorem filters_read_globals :
    (∀ A B : List Str, solve A B = solveG A B A B)
    ∧ solveG [['a']] [['a']] [['b']] [['c']] = IMPOSSIBLE
    ∧ solveG [['a']] [['a']] [['a']] [['a']] = ['a']
    ∧ IMPOSSIBLE ≠ (['a'] : Str)
    ∧ (∀ (n : ℕ) (a_lines b_lines : List Str) (s : ℕ),
        s ∈ prefixFilter n a_lines b_lines
          ↔ (s < n ∧ (b_lines.getD s [] <+: a_lines.getD s []
              ∨ a_lines.getD s [] <+: b_lines.getD s [])))
    ∧ (∀ (n : ℕ) (a_lines b_lines : List Str) (s : ℕ),
        s ∈ postfixFilter n a_lines b_lines
          ↔ (s < n ∧ (b_lines.getD s [] <:+ a_lines.getD s []
              ∨ a_lines.getD s [] <:+ b_lines.getD s []))) := by
  refine ⟨fun A B => rfl, by decide, by decide, by decide, ?_, ?_⟩
  · intro n a_lines b_lines s
    rw [prefixFilter, Finset.mem_filter, Finset.mem_range]
  · intro n a_lines b_lines s
    rw [postfixFilter, Finset.mem_filter, Finset.mem_range]

end PCP
